import Mathlib

/-!
Shallow embedding of the pubsubsql command lexer (src/parser/lexer.go), the
per-value tag index (src/server/tag.go), the mysql bridge parser
(src/server/parser_mysql.go) and the client Execute path (src/client/client.go),
together with theorems settling the specification claims about them.

Strings are modelled as lists of runes (`List Char`); the Go byte positions
`start`/`pos`/`width` are modelled as rune positions, which is faithful because
the Go code only ever slices the input at rune boundaries and `width` is used
solely to undo a single `next()`.  Loops in the Go code are modelled with an
explicit fuel argument that call sites instantiate with `input.length + 1 - pos`,
which is shown (and is easily seen) to be sufficient because every loop
iteration that continues consumes one rune of the remaining input.
-/

set_option maxHeartbeats 1000000

/-- Rune sentinel returned by `next` at end of input (Go returns rune 0). -/
def nulRune : Char := Char.ofNat 0

/-- Model of Go `unicode.IsSpace`: the Unicode White_Space property
(Latin-1 fast path plus the White_Space ranges used by Go's `unicode.Is`). -/
def goIsSpace (c : Char) : Bool :=
  let n := c.toNat
  (0x09 ≤ n && n ≤ 0x0d) || n = 0x20 || n = 0x85 || n = 0xa0 || n = 0x1680 ||
  (0x2000 ≤ n && n ≤ 0x200a) || n = 0x2028 || n = 0x2029 || n = 0x202f ||
  n = 0x205f || n = 0x3000

/-- Model of Go `unicode.IsLetter` on the ASCII range (the claims about the
lexer only ever need ASCII letters; non-ASCII letters behave the same way with
respect to the whitespace predicate). -/
def goIsLetter (c : Char) : Bool :=
  let n := c.toNat
  (0x41 ≤ n && n ≤ 0x5a) || (0x61 ≤ n && n ≤ 0x7a)

/-- Model of Go `unicode.IsDigit` on the ASCII range. -/
def goIsDigit (c : Char) : Bool :=
  let n := c.toNat
  0x30 ≤ n && n ≤ 0x39

/-- `tokenType` of src/parser/lexer.go. -/
inductive tokenType where
  | tokenTypeError
  | tokenTypeEOF
  | tokenTypeCmdHelp
  | tokenTypeCmdStatus
  | tokenTypeCmdStop
  | tokenTypeCmdStart
  | tokenTypeSqlCreate
  | tokenTypeSqlTable
  | tokenTypeSqlInsert
  | tokenTypeSqlInto
  | tokenTypeSqlUpdate
  | tokenTypeSqlDelete
  | tokenTypeSqlFrom
  | tokenTypeSqlSelect
  | tokenTypeSqlSubscribe
  | tokenTypeSqlUnsubscribe
  | tokenTypeSqlWhere
  | tokenTypeSqlStar
  | tokenTypeSqlEqual
  | tokenTypeSqlLeftParenthesis
  | tokenTypeSqlRightParenthesis
  | tokenTypeSqlComma
  | tokenTypeSqlId
  | tokenTypeSqlValue
  | tokenTypeSqlAnsiQuote
  | tokenTypeSqlString
  | tokenTypeWhiteSpace
  | tokenTypeSqlConnect
  | tokenTypeSqlDisconnect
  deriving DecidableEq, Repr

export tokenType (tokenTypeError tokenTypeEOF tokenTypeCmdHelp tokenTypeCmdStatus
  tokenTypeCmdStop tokenTypeCmdStart tokenTypeSqlCreate tokenTypeSqlTable
  tokenTypeSqlInsert tokenTypeSqlInto tokenTypeSqlUpdate tokenTypeSqlDelete
  tokenTypeSqlFrom tokenTypeSqlSelect tokenTypeSqlSubscribe tokenTypeSqlUnsubscribe
  tokenTypeSqlWhere tokenTypeSqlStar tokenTypeSqlEqual tokenTypeSqlLeftParenthesis
  tokenTypeSqlRightParenthesis tokenTypeSqlComma tokenTypeSqlId tokenTypeSqlValue
  tokenTypeSqlAnsiQuote tokenTypeSqlString tokenTypeWhiteSpace tokenTypeSqlConnect
  tokenTypeSqlDisconnect)

/-- Note: the final two constructors `tokenTypeSqlConnect` / `tokenTypeSqlDisconnect`
are modelled from the spec: the server package's copy of the token enum (used by
src/server/parser_mysql.go but not included under src/) additionally contains the
bridge keywords connect/disconnect (spec section 6, bridge grammar keywords). -/
def tokenTypeString (typ : tokenType) : String :=
  match typ with
  | tokenTypeError => "tokenTypeError"
  | tokenTypeEOF => "tokenTypeEOF"
  | tokenTypeCmdHelp => "tokenTypeCmdHelp"
  | tokenTypeCmdStatus => "tokenTypeCmdStatus"
  | tokenTypeCmdStop => "tokenTypeCmdStop"
  | tokenTypeCmdStart => "tokenTypeCmdStart"
  | tokenTypeSqlCreate => "tokenTypeSqlCreate"
  | tokenTypeSqlTable => "tokenTypeSqlTable"
  | tokenTypeSqlInsert => "tokenTypeSqlInsert"
  | tokenTypeSqlInto => "tokenTypeSqlInto"
  | tokenTypeSqlUpdate => "tokenTypeSqlUpdate"
  | tokenTypeSqlDelete => "tokenTypeSqlDelete"
  | tokenTypeSqlFrom => "tokenTypeSqlFrom"
  | tokenTypeSqlSelect => "tokenTypeSqlSelect"
  | tokenTypeSqlSubscribe => "tokenTypeSqlSubscribe"
  | tokenTypeSqlUnsubscribe => "tokenTypeSqlUnsubscribe"
  | tokenTypeSqlWhere => "tokenTypeSqlWhere"
  | tokenTypeSqlStar => "tokenTypeSqlStar"
  | tokenTypeSqlEqual => "tokenTypeSqlEqual"
  | tokenTypeSqlLeftParenthesis => "tokenTypeSqlLeftParenthesis"
  | tokenTypeSqlRightParenthesis => "tokenTypeSqlRightParenthesis"
  | tokenTypeSqlComma => "tokenTypeSqlComma"
  | tokenTypeSqlId => "tokenTypeSqlId"
  | _ => "not implemented"

/-- `token` of src/parser/lexer.go: a type tag plus the matched text. -/
structure token where
  typ : tokenType
  val : List Char
  deriving DecidableEq, Repr

/-- `lexer` of src/parser/lexer.go.  The `tokenConsumer` is modelled as the
list of tokens consumed so far (`Consume` appends). -/
@[ext]
structure lexer where
  input : List Char
  start : Nat
  pos : Nat
  width : Nat
  tokens : List token
  deriving DecidableEq, Repr

namespace lexer

/-- Go `(*lexer).next`: decode one rune, or return the sentinel at end. -/
def next (l : lexer) : lexer × Char :=
  if h : l.pos < l.input.length then
    ({ l with pos := l.pos + 1, width := 1 }, l.input.get ⟨l.pos, h⟩)
  else
    ({ l with width := 0 }, nulRune)

/-- Go `(*lexer).backup`: step back one rune (no-op after `next` at end). -/
def backup (l : lexer) : lexer :=
  { l with pos := l.pos - l.width }

/-- Go `(*lexer).ignore`. -/
def ignore (l : lexer) : lexer :=
  { l with start := l.pos }

/-- Go `(*lexer).peek`: `next` followed by `backup` (`width` is updated). -/
def peek (l : lexer) : lexer × Char :=
  let (l', r) := l.next
  (l'.backup, r)

/-- Go `(*lexer).current`: the pending lexeme, resetting `start` to `pos`. -/
def current (l : lexer) : lexer × List Char :=
  ({ l with start := l.pos }, (l.input.drop l.start).take (l.pos - l.start))

/-- Go `(*lexer).emit`: push a token holding the pending lexeme. -/
def emit (l : lexer) (typ : tokenType) : lexer :=
  let (l', cur) := l.current
  { l' with tokens := l'.tokens ++ [⟨typ, cur⟩] }

/-- Go `(*lexer).errorToken` with the message already formatted (the source
only passes fully formed strings to `fmt.Sprintf`). -/
def errorToken (l : lexer) (msg : List Char) : lexer :=
  { l with tokens := l.tokens ++ [⟨tokenTypeError, msg⟩] }

end lexer

/-- Go `isWhiteSpace`: a space character or the end-of-input sentinel. -/
def isWhiteSpace (r : Char) : Bool :=
  goIsSpace r || r = nulRune

/-- Loop body of Go `(*lexer).scanTillWhiteSpace`, with fuel. -/
def scanTillWhiteSpaceF : Nat → lexer → lexer
  | 0, l => l
  | f + 1, l =>
    let (l', r) := l.next
    if isWhiteSpace r then l' else scanTillWhiteSpaceF f l'

/-- Go `(*lexer).scanTillWhiteSpace`: read till the first whitespace rune. -/
def lexer.scanTillWhiteSpace (l : lexer) : lexer :=
  scanTillWhiteSpaceF (l.input.length + 1 - l.pos) l

/-- Loop body of Go `(*lexer).lexSkipWhiteSpaces`, with fuel. -/
def lexSkipWhiteSpacesF : Nat → lexer → lexer
  | 0, l => l
  | f + 1, l =>
    let (l', r) := l.next
    if goIsSpace r then lexSkipWhiteSpacesF f l' else l'.backup.ignore

/-- Go `(*lexer).lexSkipWhiteSpaces`: skip white space, then `backup`, `ignore`. -/
def lexer.lexSkipWhiteSpaces (l : lexer) : lexer :=
  lexSkipWhiteSpacesF (l.input.length + 1 - l.pos) l

/-- The character-comparison loop of Go `(*lexer).match`: iterate over the
expected keyword's runes, skipping the first `skip` of them and comparing each
remaining one against `next()`; a mismatch clears `done` but never breaks. -/
def matchRunes : List Char → Nat → lexer → Bool → lexer × Bool
  | [], _, l, done => (l, done)
  | _ :: rest, skip + 1, l, done => matchRunes rest skip l done
  | c :: rest, 0, l, done =>
    let (l', r) := l.next
    matchRunes rest 0 l' (done && c = r)

/-- Go `(*lexer).match`: compare the remaining keyword runes, then require a
whitespace boundary; on failure scan to the next whitespace boundary. -/
def lexer.matchKeyword (l : lexer) (str : List Char) (skip : Nat) : lexer × Bool :=
  let (l1, done) := matchRunes str skip l true
  let (l2, r) := l1.peek
  if !isWhiteSpace r then (l2.scanTillWhiteSpace, false)
  else (l2, done)

/-- Defunctionalized `stateFn` values that the Go state functions return
(`nil` is `Option.none`); `lexCommandF` is the initial state of `run`. -/
inductive stateF where
  | lexCommandF
  | lexSqlInsertIntoF
  | lexSqlInsertIntoTableF
  | lexSqlInsertIntoTableLPF
  deriving DecidableEq, Repr

/-- Go `(*lexer).lexMatch`: emit `typ` and continue with `fn` on a match,
otherwise emit an error token and stop. -/
def lexer.lexMatch (l : lexer) (typ : tokenType) (command : List Char) (skip : Nat)
    (fn : Option stateF) : lexer × Option stateF :=
  let (l1, ok) := l.matchKeyword command skip
  if ok then (l1.emit typ, fn)
  else
    let (l2, cur) := l1.current
    (l2.errorToken ("Unexpected token:".toList ++ cur), none)

/-- Go `lexCommandST`: dispatch among status / stop / start after `st`. -/
def lexCommandST (l : lexer) : lexer × Option stateF :=
  let (l1, r) := l.next
  if r = 'a' then
    let (l2, r2) := l1.next
    if r2 = 'r' then l2.lexMatch tokenTypeCmdStart "start".toList 4 none
    else l2.lexMatch tokenTypeCmdStatus "status".toList 4 none
  else l1.lexMatch tokenTypeCmdStop "stop".toList 3 none

/-- Go `lexCommandS`: dispatch among select / subscribe / st-commands. -/
def lexCommandS (l : lexer) : lexer × Option stateF :=
  let (l1, r) := l.next
  if r = 'e' then l1.lexMatch tokenTypeSqlSelect "select".toList 2 none
  else if r = 'u' then l1.lexMatch tokenTypeSqlSubscribe "subscribe".toList 2 none
  else if r = 't' then lexCommandST l1
  else
    let (l2, cur) := l1.current
    (l2.errorToken ("Invalid command:".toList ++ cur), none)

/-- Loop body of the identifier scan in Go `(*lexer).lexSqlIdentifier`. -/
def idTailF : Nat → lexer → lexer
  | 0, l => l
  | f + 1, l =>
    let (l', r) := l.next
    if goIsLetter r || goIsDigit r then idTailF f l' else l'.backup

/-- Go `(*lexer).lexSqlIdentifier`. -/
def lexer.lexSqlIdentifier (l : lexer) (typ : tokenType) (fn : Option stateF) :
    lexer × Option stateF :=
  let l1 := l.lexSkipWhiteSpaces
  let (l2, r) := l1.next
  if !goIsLetter r then
    let (l3, cur) := l2.current
    (l3.errorToken ("identifier must begin with a letter ".toList ++ cur), none)
  else
    let l3 := idTailF (l2.input.length + 1 - l2.pos) l2
    (l3.emit typ, fn)

/-- Go `(*lexer).lexSqlLeftParenthesis`. -/
def lexer.lexSqlLeftParenthesis (l : lexer) (fn : Option stateF) :
    lexer × Option stateF :=
  let l1 := l.lexSkipWhiteSpaces
  let (l2, r) := l1.next
  if r ≠ '(' then (l2.errorToken "expected ( ".toList, none)
  else (l2.emit tokenTypeSqlLeftParenthesis, fn)

/-- Go `lexSqlInsertInto`. -/
def lexSqlInsertInto (l : lexer) : lexer × Option stateF :=
  let l1 := l.lexSkipWhiteSpaces
  l1.lexMatch tokenTypeSqlInto "into".toList 0 (some stateF.lexSqlInsertIntoTableF)

/-- Go `lexSqlInsertIntoTable`. -/
def lexSqlInsertIntoTable (l : lexer) : lexer × Option stateF :=
  l.lexSqlIdentifier tokenTypeSqlTable (some stateF.lexSqlInsertIntoTableLPF)

/-- Go `lexSqlInsertIntoTableLeftParenthesis`. -/
def lexSqlInsertIntoTableLP (l : lexer) : lexer × Option stateF :=
  l.lexSqlLeftParenthesis none

/-- Go `lexCommand`, the initial state function. -/
def lexCommand (l : lexer) : lexer × Option stateF :=
  let l1 := l.lexSkipWhiteSpaces
  let (l2, r) := l1.next
  if r = 'u' then
    let (l3, r2) := l2.next
    if r2 = 'p' then l3.lexMatch tokenTypeSqlUpdate "update".toList 2 none
    else l3.lexMatch tokenTypeSqlUnsubscribe "unsubscribe".toList 2 none
  else if r = 's' then lexCommandS l2
  else if r = 'i' then l2.lexMatch tokenTypeSqlInsert "insert".toList 1
    (some stateF.lexSqlInsertIntoF)
  else if r = 'd' then l2.lexMatch tokenTypeSqlDelete "delete".toList 1 none
  else if r = 'h' then l2.lexMatch tokenTypeCmdHelp "help".toList 1 none
  else
    let (l3, cur) := l2.current
    (l3.errorToken ("Invalid command:".toList ++ cur), none)

/-- One state-function invocation. -/
def stepF : stateF → lexer → lexer × Option stateF
  | stateF.lexCommandF, l => lexCommand l
  | stateF.lexSqlInsertIntoF, l => lexSqlInsertInto l
  | stateF.lexSqlInsertIntoTableF, l => lexSqlInsertIntoTable l
  | stateF.lexSqlInsertIntoTableLPF, l => lexSqlInsertIntoTableLP l

/-- The driver loop of Go `(*lexer).run`, with fuel. -/
def runLoop : Nat → lexer → Option stateF → lexer
  | _, l, none => l
  | 0, l, some _ => l
  | f + 1, l, some s =>
    let (l', s') := stepF s l
    runLoop f l' s'

/-- Rank of a state in the (acyclic) continuation graph; each `stepF` returns
either `none` or a state of strictly smaller rank, so fuel 5 never runs out. -/
def rankF : stateF → Nat
  | stateF.lexCommandF => 4
  | stateF.lexSqlInsertIntoF => 3
  | stateF.lexSqlInsertIntoTableF => 2
  | stateF.lexSqlInsertIntoTableLPF => 1

/-- Go `(*lexer).run`: iterate state functions until `nil`, then emit the
end-of-input token unconditionally. -/
def lexer.run (l : lexer) : lexer :=
  (runLoop 5 l (some stateF.lexCommandF)).emit tokenTypeEOF

/-- Go `lex`: scan a whole input string, returning the consumed tokens. -/
def lex (input : List Char) : List token :=
  (lexer.run ⟨input, 0, 0, 0, []⟩).tokens

/-! ## Tag index (src/server/tag.go)

Go's `*tag` pointers are modelled as `Nat` addresses into a total heap
`Nat → tagNode` (a Go pointer always refers to a live node; `nil` pointers are
`Option.none` in the `prev`/`next` fields and in the externally held head).
Allocation hands out consecutive fresh addresses from a counter. -/

/-- The `tag` struct of src/server/tag.go (`prev`/`next` pointers, row index). -/
structure tagNode where
  prev : Option Nat
  next : Option Nat
  idx : Int
  deriving DecidableEq, Repr

/-- A heap of tag nodes addressed by `Nat`. -/
def tagHeap : Type := Nat → tagNode

instance : Inhabited tagHeap := ⟨fun _ => ⟨none, none, 0⟩⟩

/-- Single-cell heap update. -/
def hupd (h : tagHeap) (a : Nat) (v : tagNode) : tagHeap :=
  fun b => if b = a then v else h b

/-- Go `addTag(head, idx)`: allocate a fresh tag at address `alloc` and, when
`head` is non-nil, splice it immediately after the head (the simultaneous Go
assignment `head.next, t.next, t.prev = t, head.next, head` reads the old
`head.next` first).  Returns the new heap, the next allocation counter and the
address of the added tag. -/
def addTag (h : tagHeap) (alloc : Nat) (head : Option Nat) (idx : Int) :
    tagHeap × Nat × Nat :=
  let a := alloc
  let h1 := hupd h a ⟨none, none, idx⟩
  match head with
  | none => (h1, a + 1, a)
  | some hd =>
    let oldNext := (h hd).next
    let h2 := hupd h1 hd { h1 hd with next := some a }
    let h3 := hupd h2 a ⟨some hd, oldNext, idx⟩
    match oldNext with
    | none => (h3, a + 1, a)
    | some nx =>
      let h4 := hupd h3 nx { h3 nx with prev := some a }
      (h4, a + 1, a)

/-- Go `removeTag(t)`: unlink the tag at address `t`; returns the new heap and
`true` iff the last element was removed.  Field reads and writes follow the
source order exactly (the slide case reads `freeMe`'s fields before writing). -/
def removeTag (h : tagHeap) (t : Nat) : tagHeap × Bool :=
  let tn := h t
  match tn.prev with
  | none =>
    match tn.next with
    | none => (h, true)
    | some fm =>
      -- slide and remove: t.idx, t.next = freeMe.idx, freeMe.next
      let fmN := h fm
      let h1 := hupd h t { h t with idx := fmN.idx, next := fmN.next }
      let h2 :=
        match fmN.next with
        | none => h1
        | some nx => hupd h1 nx { h1 nx with prev := some t }
      let h3 := hupd h2 fm { h2 fm with prev := none, next := none }
      (h3, false)
  | some p =>
    let h1 := hupd h p { h p with next := tn.next }
    let h2 :=
      match tn.next with
      | none => h1
      | some nx => hupd h1 nx { h1 nx with prev := some p }
    let h3 := hupd h2 t { h2 t with prev := none, next := none }
    (h3, false)

/-- The address stored in the `next` field entering a segment: the first
address of `ps`, or `nxt` when `ps` is empty. -/
def headAddr (ps : List (Nat × Int)) (nxt : Option Nat) : Option Nat :=
  match ps with
  | [] => nxt
  | (b, _) :: _ => some b

/-- `chainSeg h pr ps nxt`: the (address, idx) pairs `ps` form a doubly linked
segment in heap `h` whose first node's `prev` is `pr` and whose last node's
`next` is `nxt`. -/
def chainSeg (h : tagHeap) : Option Nat → List (Nat × Int) → Option Nat → Prop
  | _, [], _ => True
  | pr, (a, i) :: rest, nxt =>
    h a = ⟨pr, headAddr rest nxt, i⟩ ∧ chainSeg h (some a) rest nxt

instance (h : tagHeap) (pr : Option Nat) (ps : List (Nat × Int)) (nxt : Option Nat) :
    Decidable (chainSeg h pr ps nxt) := by
  induction ps generalizing pr with
  | nil => exact isTrue trivial
  | cons p rest ih =>
    obtain ⟨a, i⟩ := p
    exact @instDecidableAnd _ _ inferInstance (ih (some a))

/-- A whole well-formed tag list: a chain from `prev = nil` to `next = nil`,
headed by `head`, with pairwise distinct addresses. -/
def reprList (h : tagHeap) (head : Option Nat) (ps : List (Nat × Int)) : Prop :=
  head = headAddr ps none ∧ chainSeg h none ps none ∧ (ps.map Prod.fst).Nodup

/-- Walk `next` links from `head`, collecting addresses; `none` when fuel runs
out before the walk terminates (used to express acyclicity). -/
def walkNext (h : tagHeap) : Nat → Option Nat → Option (List Nat)
  | _, none => some []
  | 0, some _ => none
  | f + 1, some a =>
    match walkNext h f (h a).next with
    | none => none
    | some as => some (a :: as)

/-- The `prev` link entering the segment following `xs`: the last address of
`xs`, or `pr` when `xs` is empty. -/
def lastPrev (xs : List (Nat × Int)) (pr : Option Nat) : Option Nat :=
  match xs with
  | [] => pr
  | (a, _) :: rest => lastPrev rest (some a)

/-- Collect the `idx` values along a successful walk. -/
def walkIdxOf (h : tagHeap) (res : Option (List Nat)) : Option (List Int) :=
  res.map (List.map fun a => (h a).idx)

/-- A caller-level operation on a tag list: add a row index, or remove the tag
at a given address. -/
inductive tagOp where
  | add (i : Int)
  | remove (a : Nat)
  deriving DecidableEq, Repr

/-- The owner's view of one tag list: the heap, the allocation counter and the
externally held head reference. -/
structure tagState where
  heap : tagHeap
  alloc : Nat
  head : Option Nat

/-- The initial state: empty (null) head, nothing allocated. -/
def initTagState : tagState :=
  ⟨fun _ => ⟨none, none, 0⟩, 0, none⟩

/-- Modelled from the spec: the caller contract exactly as the spec words it
(section 4.3): `addTag` "returns the newly inserted tag, which callers use as
their new head", and on `removeTag` returning emptied the caller clears its
head reference (else keeps it). -/
def specContractStep (s : tagState) : tagOp → tagState
  | tagOp.add i =>
    let (h', al', a) := addTag s.heap s.alloc s.head i
    ⟨h', al', some a⟩
  | tagOp.remove a =>
    let (h', b) := removeTag s.heap a
    ⟨h', s.alloc, if b then none else s.head⟩

/-- The head-stable caller contract (the amended form of the spec's contract):
the head reference is set to `addTag`'s result only when it was null, is kept
unchanged by further adds, and is cleared when `removeTag` reports emptied. -/
def stableContractStep (s : tagState) : tagOp → tagState
  | tagOp.add i =>
    let (h', al', a) := addTag s.heap s.alloc s.head i
    ⟨h', al', some (s.head.getD a)⟩
  | tagOp.remove a =>
    let (h', b) := removeTag s.heap a
    ⟨h', s.alloc, if b then none else s.head⟩

/-- Run a sequence of operations under a given caller contract, keeping the
ghost list of indices added and not yet removed (a removal removes the `idx`
carried by the removed tag at call time). -/
def runOps (step : tagState → tagOp → tagState) :
    tagState → List Int → List tagOp → tagState × List Int
  | s, m, [] => (s, m)
  | s, m, tagOp.add i :: rest => runOps step (step s (tagOp.add i)) (m ++ [i]) rest
  | s, m, tagOp.remove a :: rest =>
    runOps step (step s (tagOp.remove a)) (m.erase (s.heap a).idx) rest

/-- Validity of a sequence of operations: every removal targets a tag that is
currently linked (reachable from the head), and every added index is not
currently a member (the freshness discipline of the row-ordinal caller). -/
def validOps (step : tagState → tagOp → tagState) :
    tagState → List Int → List tagOp → Bool
  | _, _, [] => true
  | s, m, tagOp.add i :: rest =>
    !(m.contains i) && validOps step (step s (tagOp.add i)) (m ++ [i]) rest
  | s, m, tagOp.remove a :: rest =>
    (match walkNext s.heap s.alloc s.head with
     | none => false
     | some as => as.contains a) &&
      validOps step (step s (tagOp.remove a)) (m.erase (s.heap a).idx) rest

/-- Repeatedly call `removeTag` on the caller's head address until it reports
emptied (or fuel runs out), collecting the returned booleans. -/
def drain : Nat → tagHeap → Nat → List Bool
  | 0, _, _ => []
  | f + 1, h, a =>
    let (h', b) := removeTag h a
    if b then [true] else false :: drain f h' a

/-! ## Mysql bridge parser (src/server/parser_mysql.go)

The `parser` struct's token producer is modelled as the list of tokens not yet
consumed; `Produce` pops the next one (an exhausted stream keeps yielding the
end-of-input token, which is the terminal token the lexer always emits). -/

/-- The `request` values relevant to the bridge sub-grammar of
src/server/parser_mysql.go.  `errRequest` is modelled from the spec: a parse
error is an ordinary value carrying a human-readable message (spec section
4.2/7); the concrete error-request struct is not under src/. -/
inductive request where
  | mysqlConnectRequest (connectionAddress : List Char)
  | mysqlDisconnectRequest
  | mysqlSubscribeRequest
  | mysqlUnsubscribeRequest
  | errRequest (msg : List Char)
  deriving DecidableEq, Repr

/-- Modelled from the spec: the parser pulls tokens lazily one at a time from
the lexer's output (spec section 4.2); the stream is the list of pending
tokens. -/
def Produce (ts : List token) : token × List token :=
  match ts with
  | [] => (⟨tokenTypeEOF, []⟩, [])
  | t :: rest => (t, rest)

/-- Modelled from the spec: `parseError` wraps a descriptive message in an
error value, unwinding no stack (spec sections 4.2 and 7). -/
def parseError (msg : List Char) : request :=
  request.errRequest msg

/-- Modelled from the spec: `parseEOF` is the shared expectEnd helper (spec
section 4.2): pull one more token and fail unless it is the end-of-input
token. -/
def parseEOF (ts : List token) (req : request) : request :=
  let (tok, _) := Produce ts
  if tok.typ = tokenTypeEOF then req
  else parseError ("expected end of input, but got: ".toList ++
    (tokenTypeString tok.typ).toList)

/-- Go `(*parser).parseConnectionAddress`: returns the error request (if any),
the parsed address and the remaining tokens. -/
def parseConnectionAddress (ts : List token) :
    Option request × List Char × List token :=
  let (tok, ts') := Produce ts
  if tok.typ ≠ tokenTypeSqlValue then
    (some (parseError ("expected connection address, but got: ".toList ++
      (tokenTypeString tok.typ).toList)), [], ts')
  else (none, tok.val, ts')

/-- Go `(*parser).parseMysqlConnect`. -/
def parseMysqlConnect (ts : List token) : request :=
  match parseConnectionAddress ts with
  | (some errReq, _, _) => errReq
  | (none, addr, ts') => parseEOF ts' (request.mysqlConnectRequest addr)

/-- Go `(*parser).parseMysqlDisconnect`. -/
def parseMysqlDisconnect (ts : List token) : request :=
  parseEOF ts request.mysqlDisconnectRequest

/-- Go `(*parser).parseMysqlSubscribe`. -/
def parseMysqlSubscribe (ts : List token) : request :=
  parseEOF ts request.mysqlSubscribeRequest

/-- Go `(*parser).parseMysqlUnsubscribe`. -/
def parseMysqlUnsubscribe (ts : List token) : request :=
  parseEOF ts request.mysqlUnsubscribeRequest

/-- Go `(*parser).parseSqlMysql`: the bridge sub-grammar dispatch. -/
def parseSqlMysql (ts : List token) : request :=
  let (tok, ts') := Produce ts
  match tok.typ with
  | tokenTypeSqlConnect => parseMysqlConnect ts'
  | tokenTypeSqlDisconnect => parseMysqlDisconnect ts'
  | tokenTypeSqlSubscribe => parseMysqlSubscribe ts'
  | tokenTypeSqlUnsubscribe => parseMysqlUnsubscribe ts'
  | _ => parseError "invalid mysql request".toList

/-! ## Client Execute (src/client/client.go)

The network reader/writer is an external collaborator: its outcomes are inputs
to the model.  A Go nil-pointer dereference is modelled by returning `none`
(the fault); every non-faulting path returns `some` of the final client state
and the boolean result. -/

/-- The response header delivered by the framing layer (modelled from the
spec, section 6: responses are keyed by a request identifier). -/
structure NetworkHeader where
  RequestId : Nat
  deriving DecidableEq, Repr

/-- The fields of the Go `client` struct that `Execute` touches. -/
structure clientState where
  rwValid : Bool
  requestId : Nat
  errorString : List Char
  rawjson : List Char
  deriving DecidableEq, Repr

/-- Go `(*client).write`: bump the request id (uint32 arithmetic), reset the
error, then attempt the write; `writeErr` is the outcome of
`rw.WriteHeaderAndMessage`. -/
def clientWrite (c : clientState) (writeErr : Option (List Char)) :
    clientState × Bool :=
  let c1 := { c with requestId := (c.requestId + 1) % 2 ^ 32, errorString := [] }
  if c1.rwValid then
    match writeErr with
    | none => (c1, true)
    | some e => ({ c1 with errorString := e }, false)
  else ({ c1 with errorString := "Not connected".toList }, false)

/-- Go `(*client).read`: reset, then attempt the read; `res` is the outcome of
`rw.ReadMessage`.  On failure the returned header pointer is nil (`none`). -/
def clientRead (c : clientState)
    (res : Except (List Char) (NetworkHeader × List Char)) :
    clientState × Option NetworkHeader × List Char × Bool :=
  let c1 := { c with errorString := [], rawjson := [] }
  if c1.rwValid then
    match res with
    | Except.ok (hd, bs) => (c1, some hd, bs, true)
    | Except.error e => ({ c1 with errorString := e }, none, [], false)
  else ({ c1 with errorString := "Not connected".toList }, none, [], false)

/-- Go `(*client).Execute`: after a successful write, read the response and
compare `header.RequestId` against the client's request id.  The comparison
dereferences `header` unconditionally, so a failed read (nil header) is a
fault, modelled as `none`. -/
def clientExecute (c : clientState) (writeErr : Option (List Char))
    (readRes : Except (List Char) (NetworkHeader × List Char)) :
    Option (clientState × Bool) :=
  let (c1, ok) := clientWrite c writeErr
  if ok then
    let (c2, headerOpt, bytes, ok2) := clientRead c1 readRes
    match headerOpt with
    | none => none
    | some header =>
      let (c3, ok3) :=
        if header.RequestId ≠ c2.requestId then
          ({ c2 with errorString := "invalid requestId".toList }, false)
        else (c2, ok2)
      if ok3 then some ({ c3 with rawjson := bytes }, true)
      else some (c3, false)
  else some (c1, false)

/-- A well-formed list whose addresses are all below the allocation counter. -/
def boundedRepr (s : tagState) (ps : List (Nat × Int)) : Prop :=
  reprList s.heap s.head ps ∧ ∀ p ∈ ps, p.1 < s.alloc

/-- The run invariant: some well-formed bounded list represents the state and
its indices are a permutation of the ghost list. -/
def tagInv (s : tagState) (m : List Int) : Prop :=
  ∃ ps, boundedRepr s ps ∧ (ps.map Prod.snd).Perm m

/-- Run a sequence of operations from the empty list under the head-stable
caller contract. -/
def runStable (ops : List tagOp) : tagState × List Int :=
  runOps stableContractStep initTagState [] ops

/-- Run a sequence of operations from the empty list under the caller contract
exactly as the spec words it. -/
def runSpecContract (ops : List tagOp) : tagState × List Int :=
  runOps specContractStep initTagState [] ops

/-- The idx values reachable by walking next links from the head. -/
def reachableIdxList (s : tagState) : Option (List Int) :=
  (walkNext s.heap s.alloc s.head).map (List.map fun a => (s.heap a).idx)

/-- A concrete two-element heap used to instantiate theorems about `addTag`. -/
def tagHeapW : tagHeap := fun a =>
  if a = 0 then ⟨none, some 1, 7⟩
  else if a = 1 then ⟨some 0, none, 8⟩
  else ⟨none, none, 0⟩

/-- A concrete three-element list heap (chain 0 → 2 → 1, indices 1, 3, 2) used
to instantiate theorems about `removeTag`. -/
def tagHeapW3 : tagHeap := fun a =>
  if a = 0 then ⟨none, some 2, 1⟩
  else if a = 2 then ⟨some 0, some 1, 3⟩
  else if a = 1 then ⟨some 2, none, 2⟩
  else ⟨none, none, 0⟩

/-- The command keywords recognized by the lexer's dispatch. -/
def commandKeywords : List (List Char) :=
  ["update".toList, "unsubscribe".toList, "select".toList, "subscribe".toList,
   "start".toList, "status".toList, "stop".toList, "insert".toList,
   "delete".toList, "help".toList]

/-! # Theorems -/

@[simp] theorem hupd_same (h : tagHeap) (a : Nat) (v : tagNode) : hupd h a v a = v := by
  simp [hupd]

theorem hupd_other (h : tagHeap) (a b : Nat) (v : tagNode) (hb : b ≠ a) :
    hupd h a v b = h b := by
  simp [hupd, hb]

theorem chainSeg_congr {h h' : tagHeap} {pr : Option Nat} {ps : List (Nat × Int)}
    {nxt : Option Nat} (hagree : ∀ p ∈ ps, h' p.1 = h p.1) :
    chainSeg h pr ps nxt → chainSeg h' pr ps nxt := by
  induction ps generalizing pr with
  | nil => intro _; trivial
  | cons p rest ih =>
    obtain ⟨a, i⟩ := p
    intro hc
    obtain ⟨hnode, hrest⟩ := hc
    refine ⟨?_, ih (fun q hq => hagree q (List.mem_cons_of_mem _ hq)) hrest⟩
    rw [hagree ⟨a, i⟩ (List.mem_cons_self _ _)]
    exact hnode

theorem chainSeg_append (xs : List (Nat × Int)) {h : tagHeap} {pr : Option Nat}
    {ys : List (Nat × Int)} {nxt : Option Nat} :
    chainSeg h pr (xs ++ ys) nxt ↔
      chainSeg h pr xs (headAddr ys nxt) ∧ chainSeg h (lastPrev xs pr) ys nxt := by
  induction xs generalizing pr with
  | nil => simp [chainSeg, lastPrev]
  | cons p rest ih =>
    obtain ⟨a, i⟩ := p
    constructor
    · intro hc
      obtain ⟨hnode, hrest⟩ := hc
      obtain ⟨h1, h2⟩ := ih.mp hrest
      exact ⟨⟨hnode.trans (by cases rest <;> rfl), h1⟩, h2⟩
    · intro hc
      obtain ⟨⟨hnode, h1⟩, h2⟩ := hc
      exact ⟨hnode.trans (by cases rest <;> rfl), ih.mpr ⟨h1, h2⟩⟩

theorem chainSeg_idx {h : tagHeap} {pr : Option Nat} {ps : List (Nat × Int)}
    {nxt : Option Nat} (hc : chainSeg h pr ps nxt) :
    ∀ p ∈ ps, (h p.1).idx = p.2 := by
  induction ps generalizing pr with
  | nil => intro p hp; cases hp
  | cons q rest ih =>
    obtain ⟨a, i⟩ := q
    obtain ⟨hnode, hrest⟩ := hc
    intro p hp
    rcases List.mem_cons.mp hp with h1 | h2
    · subst h1; simp [hnode]
    · exact ih hrest p h2

theorem walkNext_of_chainSeg {h : tagHeap} {ps : List (Nat × Int)}
    (hc : chainSeg h none ps none) :
    ∀ fuel, ps.length ≤ fuel →
      walkNext h fuel (headAddr ps none) = some (ps.map Prod.fst) := by
  suffices H : ∀ (ps : List (Nat × Int)) (pr : Option Nat), chainSeg h pr ps none →
      ∀ fuel, ps.length ≤ fuel →
        walkNext h fuel (headAddr ps none) = some (ps.map Prod.fst) by
    intro fuel hf
    exact H ps none hc fuel hf
  intro ps
  induction ps with
  | nil => intro pr _ fuel _; simp [walkNext, headAddr]
  | cons q rest ih =>
    obtain ⟨a, i⟩ := q
    intro pr hc fuel hf
    obtain ⟨hnode, hrest⟩ := hc
    cases fuel with
    | zero => simp at hf
    | succ f =>
      have hrec := ih (some a) hrest f (Nat.le_of_succ_le_succ hf)
      cases rest with
      | nil => simp [walkNext, headAddr, hnode]
      | cons q t =>
        obtain ⟨b, j⟩ := q
        simp only [headAddr] at hrec
        simp [walkNext, headAddr, hnode, hrec]

theorem length_le_of_nodup_lt {ps : List (Nat × Int)} {n : Nat}
    (hd : (ps.map Prod.fst).Nodup) (hb : ∀ p ∈ ps, p.1 < n) :
    ps.length ≤ n := by
  have hsub : ps.map Prod.fst ⊆ List.range n := by
    intro x hx
    obtain ⟨p, hp, rfl⟩ := List.mem_map.mp hx
    exact List.mem_range.mpr (hb p hp)
  have := List.Subperm.length_le (List.subperm_of_subset hd hsub)
  simpa using this

theorem stable_add_inv {s : tagState} {ps : List (Nat × Int)}
    (hb : boundedRepr s ps) (i : Int) :
    ∃ ps', boundedRepr (stableContractStep s (tagOp.add i)) ps' ∧
      (ps'.map Prod.snd).Perm (ps.map Prod.snd ++ [i]) := by
  obtain ⟨⟨hhead, hchain, hnodup⟩, hbound⟩ := hb
  cases ps with
  | nil =>
    have hh : s.head = none := by simpa [headAddr] using hhead
    refine ⟨[(s.alloc, i)], ⟨⟨?_, ?_, ?_⟩, ?_⟩, ?_⟩
    · simp [stableContractStep, addTag, hh, headAddr]
    · exact ⟨by simp [stableContractStep, addTag, hh, hupd, headAddr], trivial⟩
    · simp
    · intro p hp
      simp only [List.mem_singleton] at hp
      subst hp
      simp [stableContractStep, addTag, hh]
    · simp
  | cons q rest =>
    obtain ⟨a0, i0⟩ := q
    have hh : s.head = some a0 := by simpa [headAddr] using hhead
    have hnode0 : s.heap a0 = ⟨none, headAddr rest none, i0⟩ := hchain.1
    have hchainrest : chainSeg s.heap (some a0) rest none := hchain.2
    have ha0lt : a0 < s.alloc := hbound (a0, i0) (by simp)
    have ha0ne : ¬(a0 = s.alloc) := Nat.ne_of_lt ha0lt
    cases rest with
    | nil =>
      have hnext : (s.heap a0).next = none := by simp [hnode0, headAddr]
      have e_a0 : (stableContractStep s (tagOp.add i)).heap a0 = ⟨none, some s.alloc, i0⟩ := by
        simp [stableContractStep, addTag, hh, hnext, hupd, ha0ne, hnode0, headAddr]
      have e_a0' : (stableContractStep s (tagOp.add i)).heap a0 =
          ⟨none, headAddr [(s.alloc, i)] none, i0⟩ := by
        simpa [headAddr] using e_a0
      have e_al : (stableContractStep s (tagOp.add i)).heap s.alloc = ⟨some a0, none, i⟩ := by
        simp [stableContractStep, addTag, hh, hnext, hupd]
      refine ⟨[(a0, i0), (s.alloc, i)], ⟨⟨?_, ?_, ?_⟩, ?_⟩, ?_⟩
      · simp [stableContractStep, addTag, hh, hnext, headAddr]
      · exact ⟨e_a0, e_al, trivial⟩
      · simp [ha0ne]
      · intro p hp
        simp only [List.mem_cons, List.mem_singleton] at hp
        have hal : (stableContractStep s (tagOp.add i)).alloc = s.alloc + 1 := by
          simp [stableContractStep, addTag, hh, hnext]
        rcases hp with h1 | h1 | h1
        · subst h1; rw [hal]; omega
        · subst h1; rw [hal]; omega
        · cases h1
      · simp
    | cons q' rest' =>
      obtain ⟨nx, inx⟩ := q'
      have hnext : (s.heap a0).next = some nx := by simp [hnode0, headAddr]
      have hnodeNx : s.heap nx = ⟨some a0, headAddr rest' none, inx⟩ := hchainrest.1
      have hchainrest' : chainSeg s.heap (some nx) rest' none := hchainrest.2
      have hnxlt : nx < s.alloc := hbound (nx, inx) (by simp)
      have hnxne : ¬(nx = s.alloc) := Nat.ne_of_lt hnxlt
      have halnx : ¬(s.alloc = nx) := fun h => hnxne h.symm
      have ha0nx : ¬(a0 = nx) := by
        intro h
        simp only [List.map_cons, List.nodup_cons, List.mem_cons] at hnodup
        exact hnodup.1 (Or.inl h)
      have hnxa0 : ¬(nx = a0) := fun h => ha0nx h.symm
      have ha0nr : a0 ∉ rest'.map Prod.fst := by
        simp only [List.map_cons, List.nodup_cons, List.mem_cons] at hnodup
        intro h
        exact hnodup.1 (Or.inr h)
      have hnxnr : nx ∉ rest'.map Prod.fst := by
        simp only [List.map_cons, List.nodup_cons, List.mem_cons] at hnodup
        exact hnodup.2.1
      have hndr : (rest'.map Prod.fst).Nodup := by
        simp only [List.map_cons, List.nodup_cons] at hnodup
        exact hnodup.2.2
      have e_a0 : (stableContractStep s (tagOp.add i)).heap a0 = ⟨none, some s.alloc, i0⟩ := by
        simp [stableContractStep, addTag, hh, hnext, hupd, ha0ne, ha0nx, hnode0, headAddr]
      have e_al : (stableContractStep s (tagOp.add i)).heap s.alloc =
          ⟨some a0, some nx, i⟩ := by
        simp [stableContractStep, addTag, hh, hnext, hupd, halnx, hnode0, headAddr]
      have e_nx : (stableContractStep s (tagOp.add i)).heap nx =
          ⟨some s.alloc, headAddr rest' none, inx⟩ := by
        simp [stableContractStep, addTag, hh, hnext, hupd, hnxne, hnxa0, hnodeNx, hnode0,
          headAddr]
      have e_other : ∀ b, ¬(b = a0) → ¬(b = s.alloc) → ¬(b = nx) →
          (stableContractStep s (tagOp.add i)).heap b = s.heap b := by
        intro b h1 h2 h3
        simp [stableContractStep, addTag, hh, hnext, hupd, h1, h2, h3, hnode0, headAddr]
      have hal : (stableContractStep s (tagOp.add i)).alloc = s.alloc + 1 := by
        simp [stableContractStep, addTag, hh, hnext]
      refine ⟨(a0, i0) :: (s.alloc, i) :: (nx, inx) :: rest', ⟨⟨?_, ?_, ?_⟩, ?_⟩, ?_⟩
      · simp [stableContractStep, addTag, hh, hnext, headAddr]
      · refine ⟨e_a0, e_al, e_nx, ?_⟩
        refine chainSeg_congr ?_ hchainrest'
        intro p hp
        have hmem : p.1 ∈ rest'.map Prod.fst := List.mem_map_of_mem Prod.fst hp
        have hlt : p.1 < s.alloc := hbound p (by simp [hp])
        exact e_other p.1 (fun h => ha0nr (h ▸ hmem)) (Nat.ne_of_lt hlt)
          (fun h => hnxnr (h ▸ hmem))
      · simp only [List.map_cons, List.nodup_cons, List.mem_cons]
        refine ⟨?_, ?_, ?_, hndr⟩
        · push_neg
          exact ⟨ha0ne, ha0nx, fun h => ha0nr h⟩
        · push_neg
          refine ⟨halnx, fun h => ?_⟩
          obtain ⟨q, hq, hqe⟩ := List.mem_map.mp h
          have := hbound q (List.mem_cons_of_mem _ (List.mem_cons_of_mem _ hq))
          omega
        · exact hnxnr
      · intro p hp
        rw [hal]
        simp only [List.mem_cons] at hp
        rcases hp with h1 | h1 | h1 | h1
        · subst h1; omega
        · subst h1; omega
        · subst h1; omega
        · have := hbound p (by simp [h1])
          omega
      · simp only [List.map_cons]
        refine List.Perm.cons i0 ?_
        exact (List.perm_append_singleton i (inx :: rest'.map Prod.snd)).symm

theorem removeTag_last {h : tagHeap} {a : Nat} {i : Int}
    (hn : h a = ⟨none, none, i⟩) : removeTag h a = (h, true) := by
  simp [removeTag, hn]

theorem removeTag_slide {h : tagHeap} {a a1 : Nat} {ia i1 : Int}
    {rest : List (Nat × Int)}
    (hr : reprList h (some a) ((a, ia) :: (a1, i1) :: rest)) :
    (removeTag h a).2 = false ∧
      reprList (removeTag h a).1 (some a) ((a, i1) :: rest) := by
  obtain ⟨hhead, hchain, hnodup⟩ := hr
  have hnode : h a = ⟨none, some a1, ia⟩ := by simpa [headAddr] using hchain.1
  have hnode1 : h a1 = ⟨some a, headAddr rest none, i1⟩ := hchain.2.1
  have hchainr : chainSeg h (some a1) rest none := hchain.2.2
  have haa1 : ¬(a = a1) := by
    simp only [List.map_cons, List.nodup_cons, List.mem_cons] at hnodup
    exact fun h' => hnodup.1 (Or.inl h')
  have ha1a : ¬(a1 = a) := fun h' => haa1 h'.symm
  have hanr : a ∉ rest.map Prod.fst := by
    simp only [List.map_cons, List.nodup_cons, List.mem_cons] at hnodup
    exact fun h' => hnodup.1 (Or.inr h')
  have ha1nr : a1 ∉ rest.map Prod.fst := by
    simp only [List.map_cons, List.nodup_cons, List.mem_cons] at hnodup
    exact hnodup.2.1
  have hndr : (rest.map Prod.fst).Nodup := by
    simp only [List.map_cons, List.nodup_cons] at hnodup
    exact hnodup.2.2
  cases rest with
  | nil =>
    have e_a : (removeTag h a).1 a = ⟨none, none, i1⟩ := by
      simp [removeTag, hnode, hnode1, headAddr, hupd, haa1]
    refine ⟨by simp [removeTag, hnode, hnode1, headAddr], rfl, ⟨?_, trivial⟩, by simp⟩
    simpa [headAddr] using e_a
  | cons q rest' =>
    obtain ⟨b, ib⟩ := q
    simp only [List.map_cons] at hanr ha1nr hndr
    have hab : ¬(a = b) := by
      intro h'
      exact hanr (by simp [h'])
    have hba : ¬(b = a) := fun h' => hab h'.symm
    have hba1 : ¬(b = a1) := by
      intro h'
      exact ha1nr (by simp [h'])
    have hnodeb : h b = ⟨some a1, headAddr rest' none, ib⟩ := hchainr.1
    have hchainr' : chainSeg h (some b) rest' none := hchainr.2
    have e_a : (removeTag h a).1 a = ⟨none, some b, i1⟩ := by
      simp [removeTag, hnode, hnode1, headAddr, hupd, haa1, hab]
    have e_b : (removeTag h a).1 b = ⟨some a, headAddr rest' none, ib⟩ := by
      simp [removeTag, hnode, hnode1, headAddr, hupd, hba, hba1, hnodeb]
    have e_other : ∀ c, ¬(c = a) → ¬(c = a1) → ¬(c = b) →
        (removeTag h a).1 c = h c := by
      intro c h1 h2 h3
      simp [removeTag, hnode, hnode1, headAddr, hupd, h1, h2, h3]
    have hbnr : b ∉ rest'.map Prod.fst := (List.nodup_cons.mp hndr).1
    have hndr' : (rest'.map Prod.fst).Nodup := (List.nodup_cons.mp hndr).2
    refine ⟨by simp [removeTag, hnode, hnode1, headAddr], rfl, ⟨?_, ?_, ?_⟩, ?_⟩
    · simpa [headAddr] using e_a
    · exact e_b
    · refine chainSeg_congr ?_ hchainr'
      intro p hp
      have hmem : p.1 ∈ rest'.map Prod.fst := List.mem_map_of_mem Prod.fst hp
      refine e_other p.1 (fun h' => hanr ?_) (fun h' => ha1nr ?_)
        (fun h' => hbnr (h' ▸ hmem))
      · exact List.mem_cons_of_mem _ (h' ▸ hmem)
      · exact List.mem_cons_of_mem _ (h' ▸ hmem)
    · simp only [List.map_cons, List.nodup_cons, List.mem_cons]
      refine ⟨?_, hbnr, hndr'⟩
      push_neg
      exact ⟨hab, fun h' => hanr (List.mem_cons_of_mem _ h')⟩

theorem lastPrev_concat (l : List (Nat × Int)) (p : Nat) (ip : Int) (pr : Option Nat) :
    lastPrev (l ++ [(p, ip)]) pr = some p := by
  induction l generalizing pr with
  | nil => rfl
  | cons q t ih =>
    obtain ⟨b, j⟩ := q
    exact ih (some b)

theorem headAddr_append (l l' : List (Nat × Int)) (nxt : Option Nat) :
    headAddr (l ++ l') nxt = headAddr l (headAddr l' nxt) := by
  cases l with
  | nil => rfl
  | cons q t =>
    obtain ⟨b, j⟩ := q
    rfl

theorem removeTag_mid {h : tagHeap} {hd : Option Nat} {xs : List (Nat × Int)}
    {a : Nat} {ia : Int} {ys : List (Nat × Int)}
    (hr : reprList h hd (xs ++ (a, ia) :: ys)) (hxs : xs ≠ []) :
    (removeTag h a).2 = false ∧ reprList (removeTag h a).1 hd (xs ++ ys) := by
  obtain ⟨hhead, hchain, hnodup⟩ := hr
  rcases List.eq_nil_or_concat xs with rfl | ⟨xs', q, hxseq⟩
  · exact absurd rfl hxs
  obtain ⟨p, ip⟩ := q
  rw [List.concat_eq_append] at hxseq
  subst hxseq
  have hassoc : (xs' ++ [(p, ip)]) ++ (a, ia) :: ys = xs' ++ ((p, ip) :: (a, ia) :: ys) := by
    simp
  rw [hassoc] at hchain hnodup hhead
  have hsplit := (chainSeg_append xs').mp hchain
  obtain ⟨hc1, hc2⟩ := hsplit
  have hlp : lastPrev xs' none = lastPrev xs' none := rfl
  obtain ⟨hnodeP, hc2'⟩ : chainSeg h (lastPrev xs' none) ((p, ip) :: (a, ia) :: ys) none :=
    hc2
  obtain ⟨hnodeA, hchainys⟩ : chainSeg h (some p) ((a, ia) :: ys) none := by
    simpa [headAddr] using hc2'
  have hnodeA' : h a = ⟨some p, headAddr ys none, ia⟩ := by
    simpa [headAddr] using hnodeA
  have hnodeP' : h p = ⟨lastPrev xs' none, some a, ip⟩ := by
    simpa [headAddr] using hnodeP
  -- distinctness from Nodup of the address list
  rw [List.map_append, List.nodup_append] at hnodup
  obtain ⟨d1, d2, disj⟩ := hnodup
  simp only [List.map_cons, List.nodup_cons, List.mem_cons] at d2
  have hpa : ¬(p = a) := fun h' => d2.1 (Or.inl h')
  have hap : ¬(a = p) := fun h' => hpa h'.symm
  have hpys : p ∉ ys.map Prod.fst := fun h' => d2.1 (Or.inr h')
  have hays : a ∉ ys.map Prod.fst := d2.2.1
  have hysnd : (ys.map Prod.fst).Nodup := d2.2.2
  have hxsmem : ∀ c ∈ xs'.map Prod.fst, ¬(c = p) ∧ ¬(c = a) ∧ c ∉ ys.map Prod.fst := by
    intro c hc
    have := disj hc
    simp only [List.map_cons, List.mem_cons] at this
    exact ⟨fun h' => this (Or.inl h'), fun h' => this (Or.inr (Or.inl h')),
      fun h' => this (Or.inr (Or.inr h'))⟩
  refine ⟨?_, ?_, ?_, ?_⟩
  · simp [removeTag, hnodeA']
  · rw [hhead]
    simp only [headAddr_append]
    rfl
  · -- the chain after unlinking `a`
    rw [show (xs' ++ [(p, ip)]) ++ ys = xs' ++ ((p, ip) :: ys) by simp]
    cases ys with
    | nil =>
      have e_p : (removeTag h a).1 p = ⟨lastPrev xs' none, none, ip⟩ := by
        simp [removeTag, hnodeA', headAddr, hupd, hap, hpa, hnodeP']
      have e_other : ∀ c, ¬(c = a) → ¬(c = p) → (removeTag h a).1 c = h c := by
        intro c h1 h2
        simp [removeTag, hnodeA', headAddr, hupd, h1, h2]
      rw [chainSeg_append xs']
      refine ⟨chainSeg_congr ?_ hc1, ?_, trivial⟩
      · intro q hq
        have hm := hxsmem q.1 (List.mem_map_of_mem Prod.fst hq)
        exact e_other q.1 hm.2.1 hm.1
      · simpa [headAddr] using e_p
    | cons q0 ys' =>
      obtain ⟨b0, ib0⟩ := q0
      simp only [List.map_cons, List.mem_cons, List.nodup_cons] at hpys hays hysnd
      push_neg at hpys hays
      have hpb0 : ¬(p = b0) := hpys.1
      have hab0 : ¬(a = b0) := hays.1
      have hb0a : ¬(b0 = a) := fun h' => hab0 h'.symm
      have hb0p : ¬(b0 = p) := fun h' => hpb0 h'.symm
      have hnodeB : h b0 = ⟨some a, headAddr ys' none, ib0⟩ := hchainys.1
      have hchainys' : chainSeg h (some b0) ys' none := hchainys.2
      have e_p : (removeTag h a).1 p = ⟨lastPrev xs' none, some b0, ip⟩ := by
        simp [removeTag, hnodeA', headAddr, hupd, hap, hpa, hpb0, hnodeP']
      have e_b0 : (removeTag h a).1 b0 = ⟨some p, headAddr ys' none, ib0⟩ := by
        simp [removeTag, hnodeA', headAddr, hupd, hb0a, hb0p, hnodeB]
      have e_other : ∀ c, ¬(c = a) → ¬(c = p) → ¬(c = b0) →
          (removeTag h a).1 c = h c := by
        intro c h1 h2 h3
        simp [removeTag, hnodeA', headAddr, hupd, h1, h2, h3]
      rw [chainSeg_append xs']
      refine ⟨chainSeg_congr ?_ hc1, ?_, ?_, ?_⟩
      · intro q hq
        have hm := hxsmem q.1 (List.mem_map_of_mem Prod.fst hq)
        exact e_other q.1 hm.2.1 hm.1 (fun h' => hm.2.2 (by simp [h']))
      · simpa [headAddr] using e_p
      · simpa [headAddr] using e_b0
      · refine chainSeg_congr ?_ hchainys'
        intro q hq
        have hmem : q.1 ∈ ys'.map Prod.fst := List.mem_map_of_mem Prod.fst hq
        exact e_other q.1 (fun h' => hays.2 (h' ▸ hmem)) (fun h' => hpys.2 (h' ▸ hmem))
          (fun h' => hysnd.1 (h' ▸ hmem))
  · -- Nodup of the remaining addresses
    rw [show (xs' ++ [(p, ip)]) ++ ys = xs' ++ ((p, ip) :: ys) by simp]
    rw [List.map_append, List.nodup_append]
    refine ⟨d1, ?_, ?_⟩
    · simp only [List.map_cons, List.nodup_cons]
      exact ⟨hpys, hysnd⟩
    · intro c hc hmem
      have hm := hxsmem c hc
      simp only [List.map_cons, List.mem_cons] at hmem
      rcases hmem with h' | h'
      · exact hm.1 h'
      · exact hm.2.2 h'

theorem stable_remove_inv {s : tagState} {ps : List (Nat × Int)} {a : Nat}
    (hb : boundedRepr s ps) (ha : a ∈ ps.map Prod.fst) :
    ∃ ps', boundedRepr (stableContractStep s (tagOp.remove a)) ps' ∧
      ((s.heap a).idx :: ps'.map Prod.snd).Perm (ps.map Prod.snd) := by
  obtain ⟨hrepr, hbound⟩ := hb
  cases ps with
  | nil => cases ha
  | cons q rest =>
    obtain ⟨a0, i0⟩ := q
    have hhead : s.head = some a0 := by simpa [headAddr] using hrepr.1
    by_cases heq : a = a0
    · subst heq
      cases rest with
      | nil =>
        have hnode : s.heap a = ⟨none, none, i0⟩ := by
          simpa [headAddr] using hrepr.2.1.1
        have hlast := removeTag_last hnode
        have hstate : stableContractStep s (tagOp.remove a) = ⟨s.heap, s.alloc, none⟩ := by
          simp [stableContractStep, hlast]
        refine ⟨[], ⟨⟨?_, trivial, by simp⟩, by simp⟩, ?_⟩
        · rw [hstate]
          rfl
        · simp [hnode]
      | cons q1 rest' =>
        obtain ⟨a1, i1⟩ := q1
        rw [hhead] at hrepr
        have hidx : (s.heap a).idx = i0 := by
          simpa [headAddr] using congrArg tagNode.idx hrepr.2.1.1
        obtain ⟨hfalse, hrepr'⟩ := removeTag_slide hrepr
        obtain ⟨h2, hrem⟩ : ∃ h2, removeTag s.heap a = (h2, false) :=
          ⟨(removeTag s.heap a).1, by rw [← hfalse]⟩
        rw [hrem] at hrepr'
        have hstate : stableContractStep s (tagOp.remove a) =
            ⟨h2, s.alloc, s.head⟩ := by
          simp [stableContractStep, hrem]
        refine ⟨(a, i1) :: rest', ⟨?_, ?_⟩, ?_⟩
        · rw [hstate, hhead]
          exact hrepr'
        · intro p hp
          rw [hstate]
          simp only [List.mem_cons] at hp
          rcases hp with h1 | h1
          · have := hbound (a, i0) (List.mem_cons_self _ _)
            simpa [h1] using this
          · exact hbound p (List.mem_cons_of_mem _ (List.mem_cons_of_mem _ h1))
        · rw [hidx]
          simp only [List.map_cons]
          exact List.Perm.refl _
    · have hmem : ∃ ia, (a, ia) ∈ (a0, i0) :: rest := by
        obtain ⟨pr, hpr, hpe⟩ := List.mem_map.mp ha
        exact ⟨pr.2, by simpa [← hpe] using hpr⟩
      obtain ⟨ia, hmem'⟩ := hmem
      obtain ⟨xs, ys, hsplit⟩ := List.append_of_mem hmem'
      have hxs : xs ≠ [] := by
        intro h'
        rw [h', List.nil_append] at hsplit
        have : a0 = a := by
          have := congrArg (fun l => headAddr l (none : Option Nat)) hsplit
          simpa [headAddr] using this
        exact heq this.symm
      have hidx : (s.heap a).idx = ia := by
        refine chainSeg_idx hrepr.2.1 (a, ia) ?_
        rw [hsplit]
        exact List.mem_append.mpr (Or.inr (List.mem_cons_self _ _))
      rw [hsplit] at hrepr
      obtain ⟨hfalse, hrepr'⟩ := removeTag_mid hrepr hxs
      obtain ⟨h2, hrem⟩ : ∃ h2, removeTag s.heap a = (h2, false) :=
        ⟨(removeTag s.heap a).1, by rw [← hfalse]⟩
      rw [hrem] at hrepr'
      have hstate : stableContractStep s (tagOp.remove a) =
          ⟨h2, s.alloc, s.head⟩ := by
        simp [stableContractStep, hrem]
      refine ⟨xs ++ ys, ⟨?_, ?_⟩, ?_⟩
      · rw [hstate]
        exact hrepr'
      · intro p hp
        rw [hstate]
        refine hbound p ?_
        rw [hsplit]
        rcases List.mem_append.mp hp with h1 | h1
        · exact List.mem_append.mpr (Or.inl h1)
        · exact List.mem_append.mpr (Or.inr (List.mem_cons_of_mem _ h1))
      · rw [hsplit, hidx]
        simp only [List.map_append, List.map_cons]
        exact List.perm_middle.symm

theorem walk_of_boundedRepr {s : tagState} {ps : List (Nat × Int)}
    (hb : boundedRepr s ps) :
    walkNext s.heap s.alloc s.head = some (ps.map Prod.fst) := by
  obtain ⟨⟨hhead, hchain, hnodup⟩, hbound⟩ := hb
  rw [hhead]
  exact walkNext_of_chainSeg hchain s.alloc
    (length_le_of_nodup_lt hnodup fun p hp => hbound p hp)

theorem tagInv_runOps (ops : List tagOp) :
    ∀ (s : tagState) (m : List Int), tagInv s m → m.Nodup →
      validOps stableContractStep s m ops = true →
      tagInv (runOps stableContractStep s m ops).1
          (runOps stableContractStep s m ops).2 ∧
        (runOps stableContractStep s m ops).2.Nodup := by
  induction ops with
  | nil =>
    intro s m hinv hnd _
    exact ⟨hinv, hnd⟩
  | cons op rest ih =>
    intro s m hinv hnd hvalid
    cases op with
    | add i =>
      rw [validOps, Bool.and_eq_true] at hvalid
      obtain ⟨hfresh, hvalid'⟩ := hvalid
      have hfresh' : i ∉ m := by simpa using hfresh
      obtain ⟨ps, hb, hperm⟩ := hinv
      obtain ⟨ps', hb', hperm'⟩ := stable_add_inv hb i
      rw [runOps]
      refine ih _ _ ⟨ps', hb', ?_⟩ ?_ hvalid'
      · exact hperm'.trans (hperm.append_right [i])
      · simp [List.nodup_append, hnd, hfresh']
    | remove a =>
      rw [validOps, Bool.and_eq_true] at hvalid
      obtain ⟨htgt, hvalid'⟩ := hvalid
      obtain ⟨ps, hb, hperm⟩ := hinv
      have hwalk := walk_of_boundedRepr hb
      rw [hwalk] at htgt
      have hmem : a ∈ ps.map Prod.fst := by simpa using htgt
      obtain ⟨ps', hb', hperm2⟩ := stable_remove_inv hb hmem
      have hx : ((s.heap a).idx :: ps'.map Prod.snd).Perm m := hperm2.trans hperm
      have hy : (ps'.map Prod.snd).Perm (m.erase (s.heap a).idx) := by
        have := (hx.symm).erase (s.heap a).idx
        rw [List.erase_cons_head] at this
        exact this.symm
      rw [runOps]
      exact ih _ _ ⟨ps', hb', hy⟩ (hnd.erase _) hvalid'

/-- C9: for every tag with no predecessor and no successor, `removeTag`
returns true ("emptied") and performs no mutation at all: the heap — in
particular every field of the tag — is unchanged. -/
theorem spec_c9_removeTag_isolated (h : tagHeap) (t : Nat) (i : Int)
    (ht : h t = ⟨none, none, i⟩) :
    removeTag h t = (h, true) := by
  simp [removeTag, ht]

/-- C9 witness: `removeTag` on a concrete isolated tag. -/
theorem spec_c9_removeTag_isolated_witness :
    removeTag (fun _ => ⟨none, none, 5⟩) 0 = ((fun _ => ⟨none, none, 5⟩), true) :=
  spec_c9_removeTag_isolated (fun _ => ⟨none, none, 5⟩) 0 5 rfl

/-- C3: `addTag(head, idx)` allocates a new tag carrying `idx` and returns it;
when `head` is non-null the new tag is spliced immediately after the head: its
`next` is the old head's `next`, its `prev` is the old head, the old head's
`next` is the new tag, and a pre-existing next node's `prev` is updated to the
new tag. -/
theorem spec_c3_addTag_splice (h : tagHeap) (alloc : Nat) (head : Option Nat)
    (i : Int)
    (hwf : head.elim True fun hd => hd < alloc ∧
      (h hd).next.elim True fun nx => nx < alloc ∧ nx ≠ hd) :
    (addTag h alloc head i).2.2 = alloc ∧
    (head = none → (addTag h alloc head i).1 alloc = ⟨none, none, i⟩) ∧
    (∀ hd, head = some hd →
      (addTag h alloc head i).1 alloc = ⟨some hd, (h hd).next, i⟩ ∧
      ((addTag h alloc head i).1 hd).next = some alloc ∧
      ∀ nx, (h hd).next = some nx →
        ((addTag h alloc head i).1 nx).prev = some alloc) := by
  cases head with
  | none =>
    refine ⟨by simp [addTag], ?_, ?_⟩
    · intro _
      simp [addTag, hupd]
    · intro hd h'
      exact Option.noConfusion h'
  | some hd =>
    simp only [Option.elim] at hwf
    obtain ⟨hlt, hwf2⟩ := hwf
    have hne : ¬(hd = alloc) := Nat.ne_of_lt hlt
    cases hnx : (h hd).next with
    | none =>
      refine ⟨by simp [addTag, hnx], ?_, ?_⟩
      · intro h'
        exact Option.noConfusion h'
      · intro hd' h'
        obtain rfl : hd' = hd := by injection h' with h2; exact h2.symm
        refine ⟨by simp [addTag, hnx, hupd], by simp [addTag, hnx, hupd, hne], ?_⟩
        intro nx h2
        rw [hnx] at h2
        exact Option.noConfusion h2
    | some nx =>
      rw [hnx] at hwf2
      simp only [Option.elim] at hwf2
      obtain ⟨hnxlt, hnxne⟩ := hwf2
      have hnxal : ¬(nx = alloc) := Nat.ne_of_lt hnxlt
      have halnx : ¬(alloc = nx) := fun h' => hnxal h'.symm
      have hdnx : ¬(hd = nx) := fun h' => hnxne h'.symm
      refine ⟨by simp [addTag, hnx], ?_, ?_⟩
      · intro h'
        exact Option.noConfusion h'
      · intro hd' h'
        obtain rfl : hd' = hd := by injection h' with h2; exact h2.symm
        refine ⟨by simp [addTag, hnx, hupd, halnx], ?_, ?_⟩
        · simp [addTag, hnx, hupd, hne, hdnx]
        · intro nx' h2
          rw [hnx] at h2
          obtain rfl : nx' = nx := by injection h2 with h3; exact h3.symm
          simp [addTag, hnx, hupd]

/-- C3 witness: `addTag` at a concrete two-element heap with non-null head,
and at the null head. -/
theorem spec_c3_addTag_splice_witness :
    ((addTag tagHeapW 2 (some 0) 9).2.2 = 2 ∧
      ((some 0 : Option Nat) = none →
        (addTag tagHeapW 2 (some 0) 9).1 2 = ⟨none, none, 9⟩) ∧
      (∀ hd, (some 0 : Option Nat) = some hd →
        (addTag tagHeapW 2 (some 0) 9).1 2 = ⟨some hd, (tagHeapW hd).next, 9⟩ ∧
        ((addTag tagHeapW 2 (some 0) 9).1 hd).next = some 2 ∧
        ∀ nx, (tagHeapW hd).next = some nx →
          ((addTag tagHeapW 2 (some 0) 9).1 nx).prev = some 2)) := by
  exact spec_c3_addTag_splice tagHeapW 2 (some 0) 9
    (by change 0 < 2 ∧ 1 < 2 ∧ (1 : Nat) ≠ 0; decide)

/-- C2: for every non-empty well-formed tag list whose head the caller holds,
repeatedly calling `removeTag` on that same head address drains the list while
the head address keeps representing the list (the slide algorithm rewrites the
head node in place), returning "not emptied" on every call except the final
one, which returns "emptied" exactly once. -/
theorem spec_c2_head_stability (h : tagHeap) (a : Nat) (ps : List (Nat × Int))
    (hne : ps ≠ []) (hr : reprList h (some a) ps) :
    drain ps.length h a = List.replicate (ps.length - 1) false ++ [true] := by
  suffices H : ∀ (n : Nat) (h : tagHeap) (ps : List (Nat × Int)), ps.length = n →
      ps ≠ [] → reprList h (some a) ps →
      drain n h a = List.replicate (n - 1) false ++ [true] by
    exact H ps.length h ps rfl hne hr
  intro n
  induction n with
  | zero =>
    intro h ps hlen hne _
    cases ps with
    | nil => exact absurd rfl hne
    | cons q rest => simp at hlen
  | succ n ih =>
    intro h ps hlen hne hr
    cases ps with
    | nil => exact absurd rfl hne
    | cons q rest =>
      obtain ⟨a0, i0⟩ := q
      obtain rfl : a = a0 := by
        have := hr.1
        simp only [headAddr] at this
        injection this with h2
      cases rest with
      | nil =>
        obtain rfl : n = 0 := by simpa using hlen
        have hnode : h a = ⟨none, none, i0⟩ := by
          simpa [headAddr] using hr.2.1.1
        have hlast := removeTag_last hnode
        simp [drain, hlast]
      | cons q1 rest' =>
        obtain ⟨a1, i1⟩ := q1
        obtain ⟨hfalse, hrepr'⟩ := removeTag_slide hr
        obtain ⟨h2, hrem⟩ : ∃ h2, removeTag h a = (h2, false) :=
          ⟨(removeTag h a).1, by rw [← hfalse]⟩
        rw [hrem] at hrepr'
        have hlen' : ((a, i1) :: rest').length = n := by simpa using hlen
        have hrec := ih h2 ((a, i1) :: rest') hlen' (by simp) hrepr'
        have hn1 : 1 ≤ n := by
          rw [← hlen']
          simp
        rw [drain, hrem]
        simp only [Bool.false_eq_true, if_false, hrec]
        rw [show n + 1 - 1 = (n - 1) + 1 by omega]
        rw [List.replicate_succ]
        rfl

/-- C2 witness: draining a concrete three-element list through its head. -/
theorem spec_c2_head_stability_witness :
    drain ([((0 : Nat), (1 : Int)), (2, 3), (1, 2)].length) tagHeapW3 0 =
      List.replicate ([((0 : Nat), (1 : Int)), (2, 3), (1, 2)].length - 1) false ++
        [true] :=
  spec_c2_head_stability tagHeapW3 0 [(0, 1), (2, 3), (1, 2)] (by decide)
    (by refine ⟨rfl, ?_, by decide⟩; decide)

/-- C1 (amended): for every valid operation sequence from the empty list —
removals target linked tags, added indices are not currently present, and the
caller keeps its head reference stable (sets it when null, clears it on
"emptied") — the walk of next links from the head terminates (no cycle),
visits pairwise distinct addresses, and the idx values it collects are exactly
(a permutation of) the indices added and not yet removed, with no duplicate
idx values. -/
theorem spec_c1_reachable_set (ops : List tagOp)
    (hv : validOps stableContractStep initTagState [] ops = true) :
    ∃ as : List Nat,
      walkNext (runStable ops).1.heap (runStable ops).1.alloc
          (runStable ops).1.head = some as ∧
      as.Nodup ∧
      (as.map fun b => ((runStable ops).1.heap b).idx).Perm (runStable ops).2 ∧
      (as.map fun b => ((runStable ops).1.heap b).idx).Nodup := by
  have hinit : tagInv initTagState [] :=
    ⟨[], ⟨⟨rfl, trivial, by simp⟩, by simp⟩, List.Perm.refl _⟩
  obtain ⟨hinv, hnd⟩ := tagInv_runOps ops initTagState [] hinit (by simp) hv
  obtain ⟨ps, hb, hperm⟩ := hinv
  refine ⟨ps.map Prod.fst, ?_, hb.1.2.2, ?_, ?_⟩
  · exact walk_of_boundedRepr hb
  · have hidx : ∀ p ∈ ps, ((runStable ops).1.heap p.1).idx = p.2 :=
      chainSeg_idx hb.1.2.1
    have : (ps.map Prod.fst).map (fun b => ((runStable ops).1.heap b).idx) =
        ps.map Prod.snd := by
      rw [List.map_map]
      exact List.map_congr_left hidx
    rw [this]
    exact hperm
  · have hidx : ∀ p ∈ ps, ((runStable ops).1.heap p.1).idx = p.2 :=
      chainSeg_idx hb.1.2.1
    have : (ps.map Prod.fst).map (fun b => ((runStable ops).1.heap b).idx) =
        ps.map Prod.snd := by
      rw [List.map_map]
      exact List.map_congr_left hidx
    rw [this]
    exact (hperm.nodup_iff).mpr hnd

/-- C1 witness: a concrete valid sequence (two adds, a middle-style removal,
then another add) under the head-stable contract. -/
theorem spec_c1_reachable_set_witness :
    validOps stableContractStep initTagState []
        [tagOp.add 1, tagOp.add 2, tagOp.remove 1, tagOp.add 3] = true ∧
      ∃ as : List Nat,
        walkNext (runStable [tagOp.add 1, tagOp.add 2, tagOp.remove 1, tagOp.add 3]).1.heap
            (runStable [tagOp.add 1, tagOp.add 2, tagOp.remove 1, tagOp.add 3]).1.alloc
            (runStable [tagOp.add 1, tagOp.add 2, tagOp.remove 1, tagOp.add 3]).1.head
          = some as ∧
        as.Nodup ∧
        (as.map fun b =>
            ((runStable [tagOp.add 1, tagOp.add 2, tagOp.remove 1, tagOp.add 3]).1.heap
              b).idx).Perm
          (runStable [tagOp.add 1, tagOp.add 2, tagOp.remove 1, tagOp.add 3]).2 ∧
        (as.map fun b =>
            ((runStable [tagOp.add 1, tagOp.add 2, tagOp.remove 1, tagOp.add 3]).1.heap
              b).idx).Nodup :=
  ⟨by decide, spec_c1_reachable_set [tagOp.add 1, tagOp.add 2, tagOp.remove 1, tagOp.add 3]
    (by decide)⟩

/-- C1 counterexample: under the caller contract exactly as the spec words it
("callers use addTag's returned tag as their new head"), the valid sequence
add 1 then add 2 leaves index 1 added and not removed, yet the walk of next
links from the caller's head reaches only the tag with index 2 — the
reachable idx set is not the set of indices added and not yet removed. -/
theorem spec_c1_counterexample :
    validOps specContractStep initTagState [] [tagOp.add 1, tagOp.add 2] = true ∧
    (runSpecContract [tagOp.add 1, tagOp.add 2]).2 = [1, 2] ∧
    reachableIdxList (runSpecContract [tagOp.add 1, tagOp.add 2]).1 = some [2] ∧
    (1 : Int) ∈ (runSpecContract [tagOp.add 1, tagOp.add 2]).2 ∧
    ¬((1 : Int) ∈ [(2 : Int)]) := by
  refine ⟨by decide, by decide, by decide, by decide, by decide⟩

theorem next_proj (l : lexer) :
    (l.next).1.input = l.input ∧ (l.next).1.start = l.start ∧
      (l.next).1.tokens = l.tokens := by
  rw [lexer.next]
  split <;> exact ⟨rfl, rfl, rfl⟩

theorem peek_proj (l : lexer) :
    (l.peek).1.input = l.input ∧ (l.peek).1.start = l.start ∧
      (l.peek).1.pos = l.pos ∧ (l.peek).1.tokens = l.tokens := by
  rw [lexer.peek, lexer.next]
  by_cases h : l.pos < l.input.length
  · simp only [dif_pos h]
    exact ⟨rfl, rfl, rfl, rfl⟩
  · simp only [dif_neg h]
    exact ⟨rfl, rfl, rfl, rfl⟩

theorem scanTillWhiteSpaceF_proj (f : Nat) (l : lexer) :
    (scanTillWhiteSpaceF f l).input = l.input ∧
      (scanTillWhiteSpaceF f l).start = l.start ∧
      (scanTillWhiteSpaceF f l).tokens = l.tokens := by
  induction f generalizing l with
  | zero => exact ⟨rfl, rfl, rfl⟩
  | succ f ih =>
    rw [scanTillWhiteSpaceF]
    rcases hn : l.next with ⟨l', r⟩
    obtain ⟨h1, h2, h3⟩ := next_proj l
    rw [hn] at h1 h2 h3
    simp only [hn]
    split
    · exact ⟨h1, h2, h3⟩
    · obtain ⟨g1, g2, g3⟩ := ih l'
      exact ⟨g1.trans h1, g2.trans h2, g3.trans h3⟩

theorem scanTillWhiteSpace_proj (l : lexer) :
    l.scanTillWhiteSpace.input = l.input ∧
      l.scanTillWhiteSpace.start = l.start ∧
      l.scanTillWhiteSpace.tokens = l.tokens :=
  scanTillWhiteSpaceF_proj _ l

theorem lexSkipWhiteSpacesF_proj (f : Nat) (l : lexer) :
    (lexSkipWhiteSpacesF f l).input = l.input ∧
      (lexSkipWhiteSpacesF f l).tokens = l.tokens := by
  induction f generalizing l with
  | zero => exact ⟨rfl, rfl⟩
  | succ f ih =>
    rw [lexSkipWhiteSpacesF]
    rcases hn : l.next with ⟨l', r⟩
    obtain ⟨h1, _, h3⟩ := next_proj l
    rw [hn] at h1 h3
    simp only [hn]
    split
    · obtain ⟨g1, g3⟩ := ih l'
      exact ⟨g1.trans h1, g3.trans h3⟩
    · exact ⟨h1, h3⟩

theorem lexSkipWhiteSpaces_proj (l : lexer) :
    l.lexSkipWhiteSpaces.input = l.input ∧ l.lexSkipWhiteSpaces.tokens = l.tokens :=
  lexSkipWhiteSpacesF_proj _ l

theorem matchRunes_proj (cs : List Char) (skip : Nat) (l : lexer) (done : Bool) :
    (matchRunes cs skip l done).1.input = l.input ∧
      (matchRunes cs skip l done).1.start = l.start ∧
      (matchRunes cs skip l done).1.tokens = l.tokens := by
  induction cs generalizing skip l done with
  | nil => exact ⟨rfl, rfl, rfl⟩
  | cons c rest ih =>
    cases skip with
    | succ skip => exact ih skip l done
    | zero =>
      rw [matchRunes]
      rcases hn : l.next with ⟨l', r⟩
      obtain ⟨h1, h2, h3⟩ := next_proj l
      rw [hn] at h1 h2 h3
      simp only [hn]
      obtain ⟨g1, g2, g3⟩ := ih 0 l' (done && c = r)
      exact ⟨g1.trans h1, g2.trans h2, g3.trans h3⟩

theorem matchKeyword_proj (l : lexer) (cs : List Char) (skip : Nat) :
    (l.matchKeyword cs skip).1.input = l.input ∧
      (l.matchKeyword cs skip).1.start = l.start ∧
      (l.matchKeyword cs skip).1.tokens = l.tokens := by
  rw [lexer.matchKeyword]
  rcases hm : matchRunes cs skip l true with ⟨l1, done⟩
  obtain ⟨h1, h2, h3⟩ := matchRunes_proj cs skip l true
  rw [hm] at h1 h2 h3
  simp only [hm]
  rcases hp : l1.peek with ⟨l2, r⟩
  obtain ⟨p1, p2, _, p4⟩ := peek_proj l1
  rw [hp] at p1 p2 p4
  simp only [hp]
  split
  · obtain ⟨s1, s2, s3⟩ := scanTillWhiteSpace_proj l2
    exact ⟨s1.trans (p1.trans h1), s2.trans (p2.trans h2), s3.trans (p4.trans h3)⟩
  · exact ⟨p1.trans h1, p2.trans h2, p4.trans h3⟩

theorem get_append_length (pre : List Char) (c : Char) (rest : List Char)
    (h : pre.length < (pre ++ c :: rest).length) :
    (pre ++ c :: rest).get ⟨pre.length, h⟩ = c := by
  induction pre with
  | nil => rfl
  | cons d pre ih => exact ih _

theorem next_at (pre : List Char) (c : Char) (rest : List Char) (st wd : Nat)
    (tk : List token) :
    lexer.next ⟨pre ++ c :: rest, st, pre.length, wd, tk⟩ =
      (⟨pre ++ c :: rest, st, pre.length + 1, 1, tk⟩, c) := by
  have hlt : pre.length < (pre ++ c :: rest).length := by
    simp
  rw [lexer.next]
  rw [dif_pos hlt]
  rw [get_append_length]

theorem next_at_end (pre : List Char) (st wd : Nat) (tk : List token) :
    lexer.next ⟨pre ++ [], st, pre.length, wd, tk⟩ =
      (⟨pre ++ [], st, pre.length, 0, tk⟩, nulRune) := by
  rw [lexer.next]
  rw [dif_neg (by simp)]

theorem matchRunes_skip (cs : List Char) :
    ∀ (skip : Nat) (l : lexer) (done : Bool),
      matchRunes cs skip l done = matchRunes (cs.drop skip) 0 l done := by
  induction cs with
  | nil => intro skip l done; cases skip <;> rfl
  | cons c rest ih =>
    intro skip l done
    cases skip with
    | zero => rfl
    | succ skip => exact ih skip l done

theorem matchRunes_word (cs : List Char) :
    ∀ (pre rem : List Char) (st wd : Nat) (tk : List token) (done : Bool),
      (∀ c ∈ cs, ¬(c = nulRune)) →
      matchRunes cs 0 ⟨pre ++ rem, st, pre.length, wd, tk⟩ done =
        (⟨pre ++ rem, st, pre.length + min cs.length rem.length,
          if cs.isEmpty then wd else if cs.length ≤ rem.length then 1 else 0, tk⟩,
         done && decide (rem.take cs.length = cs)) := by
  induction cs with
  | nil =>
    intro pre rem st wd tk done _
    simp [matchRunes]
  | cons c0 cs' ih =>
    intro pre rem st wd tk done hnn
    cases rem with
    | nil =>
      rw [matchRunes]
      rw [show (pre : List Char) ++ [] = pre ++ [] from rfl]
      rw [next_at_end pre st wd tk]
      dsimp only
      have h0 : ¬(c0 = nulRune) := hnn c0 (List.mem_cons_self _ _)
      have hd : (done && c0 = nulRune) = false := by
        simp [h0]
      rw [hd]
      have := ih pre [] st 0 tk false (fun c hc => hnn c (List.mem_cons_of_mem _ hc))
      rw [this]
      simp
    | cons c rem' =>
      rw [matchRunes]
      rw [next_at pre c rem' st wd tk]
      dsimp only
      have hstep : (⟨pre ++ c :: rem', st, pre.length + 1, 1, tk⟩ : lexer) =
          ⟨(pre ++ [c]) ++ rem', st, (pre ++ [c]).length, 1, tk⟩ := by
        simp
      rw [hstep]
      rw [ih (pre ++ [c]) rem' st 1 tk (done && c0 = c)
        (fun c' hc => hnn c' (List.mem_cons_of_mem _ hc))]
      refine Prod.ext ?_ ?_
      · refine lexer.ext (by simp) rfl ?_ ?_ rfl
        · simp only [List.length_append, List.length_cons, List.length_nil]
          omega
        · by_cases h1 : cs' = []
          · subst h1
            simp
          · have h2 : cs'.isEmpty = false := by simp [h1]
            have h3 : (c0 :: cs').isEmpty = false := by simp
            simp only [h2, h3, if_false, List.length_cons]
            by_cases h4 : cs'.length ≤ rem'.length
            · simp [h4, Nat.succ_le_succ h4]
            · have h5 : ¬(cs'.length + 1 ≤ rem'.length + 1) := by omega
              simp [h4, h5]
      · by_cases he : c0 = c
        · subst he
          simp only [List.take_succ_cons]
          by_cases ht : rem'.take cs'.length = cs'
          · simp [ht]
          · have hne : ¬(c0 :: rem'.take cs'.length = c0 :: cs') := by
              intro h'
              injection h' with _ h2
              exact ht h2
            simp [ht, hne]
        · have hne : ¬(c :: rem'.take cs'.length = c0 :: cs') := by
            intro h'
            injection h' with h1 _
            exact he h1.symm
          simp [he, List.take_succ_cons, hne]

theorem scanTillWhiteSpaceF_to_end (suf : List Char) :
    ∀ (pre : List Char) (st wd : Nat) (tk : List token) (f : Nat),
      suf.length < f → (∀ c ∈ suf, isWhiteSpace c = false) →
      scanTillWhiteSpaceF f ⟨pre ++ suf, st, pre.length, wd, tk⟩ =
        ⟨pre ++ suf, st, (pre ++ suf).length, 0, tk⟩ := by
  induction suf with
  | nil =>
    intro pre st wd tk f hf _
    cases f with
    | zero => omega
    | succ f =>
      rw [scanTillWhiteSpaceF]
      rw [next_at_end pre st wd tk]
      dsimp only
      rw [if_pos (by simp [isWhiteSpace, nulRune])]
      simp
  | cons c suf' ih =>
    intro pre st wd tk f hf hw
    cases f with
    | zero => simp at hf
    | succ f =>
      rw [scanTillWhiteSpaceF]
      rw [next_at pre c suf' st wd tk]
      dsimp only
      rw [if_neg (by simp [hw c (List.mem_cons_self _ _)])]
      have hstep : (⟨pre ++ c :: suf', st, pre.length + 1, 1, tk⟩ : lexer) =
          ⟨(pre ++ [c]) ++ suf', st, (pre ++ [c]).length, 1, tk⟩ := by
        simp
      rw [hstep]
      rw [ih (pre ++ [c]) st 1 tk f (by simpa using Nat.lt_of_succ_lt_succ hf)
        (fun d hd => hw d (List.mem_cons_of_mem _ hd))]
      refine lexer.ext (by simp) rfl (by simp) rfl rfl

theorem scanTillWhiteSpace_to_end (pre suf : List Char) (st wd : Nat)
    (tk : List token) (hw : ∀ c ∈ suf, isWhiteSpace c = false) :
    lexer.scanTillWhiteSpace ⟨pre ++ suf, st, pre.length, wd, tk⟩ =
      ⟨pre ++ suf, st, (pre ++ suf).length, 0, tk⟩ := by
  rw [lexer.scanTillWhiteSpace]
  refine scanTillWhiteSpaceF_to_end suf pre st wd tk _ ?_ hw
  simp only [List.length_append]
  omega

theorem skipWS_head_nonspace (c : Char) (cs : List Char) (st wd : Nat)
    (tk : List token) (h : goIsSpace c = false) :
    lexer.lexSkipWhiteSpaces ⟨c :: cs, st, 0, wd, tk⟩ = ⟨c :: cs, 0, 0, 1, tk⟩ := by
  rw [lexer.lexSkipWhiteSpaces]
  have hf : (⟨c :: cs, st, 0, wd, tk⟩ : lexer).input.length + 1 -
      (⟨c :: cs, st, 0, wd, tk⟩ : lexer).pos = cs.length + 1 + 1 := by
    simp
  rw [hf]
  rw [lexSkipWhiteSpacesF]
  have hnx : lexer.next ⟨c :: cs, st, 0, wd, tk⟩ = (⟨c :: cs, st, 1, 1, tk⟩, c) := by
    have := next_at [] c cs st wd tk
    simpa using this
  rw [hnx]
  dsimp only
  rw [if_neg (by simp [h])]
  rfl

theorem peek_at_end (pre : List Char) (st wd : Nat) (tk : List token) :
    lexer.peek ⟨pre ++ [], st, pre.length, wd, tk⟩ =
      (⟨pre ++ [], st, pre.length, 0, tk⟩, nulRune) := by
  rw [lexer.peek]
  rw [next_at_end pre st wd tk]
  dsimp only
  rfl

theorem peek_at (pre : List Char) (c : Char) (rest : List Char) (st wd : Nat)
    (tk : List token) :
    lexer.peek ⟨pre ++ c :: rest, st, pre.length, wd, tk⟩ =
      (⟨pre ++ c :: rest, st, pre.length, 1, tk⟩, c) := by
  rw [lexer.peek]
  rw [next_at pre c rest st wd tk]
  dsimp only
  rw [lexer.backup]
  rfl

theorem lexMatch_word (typ : tokenType) (kw : List Char) (skip : Nat)
    (fn : Option stateF) (pre rem : List Char) (wd : Nat) (tk : List token)
    (hrem : ∀ c ∈ rem, isWhiteSpace c = false)
    (hkw : ∀ c ∈ kw.drop skip, ¬(c = nulRune)) :
    lexer.lexMatch ⟨pre ++ rem, 0, pre.length, wd, tk⟩ typ kw skip fn =
      if rem = kw.drop skip then
        (⟨pre ++ rem, (pre ++ rem).length, (pre ++ rem).length, 0,
          tk ++ [⟨typ, pre ++ rem⟩]⟩, fn)
      else
        (⟨pre ++ rem, (pre ++ rem).length, (pre ++ rem).length, 0,
          tk ++ [⟨tokenTypeError, "Unexpected token:".toList ++ (pre ++ rem)⟩]⟩,
         none) := by
  rw [lexer.lexMatch, lexer.matchKeyword, matchRunes_skip]
  rw [matchRunes_word (kw.drop skip) pre rem 0 wd tk true hkw]
  dsimp only
  have hbw : ¬((!isWhiteSpace nulRune) = true) := by decide
  by_cases heq : rem = kw.drop skip
  · rw [if_pos heq]
    rw [← heq]
    simp only [Nat.min_self, List.take_length]
    have hstep : (⟨pre ++ rem, 0, pre.length + rem.length,
        if rem.isEmpty = true then wd else if rem.length ≤ rem.length then 1 else 0,
        tk⟩ : lexer) =
        ⟨(pre ++ rem) ++ [], 0, (pre ++ rem).length,
          if rem.isEmpty = true then wd else if rem.length ≤ rem.length then 1 else 0,
          tk⟩ := by
      simp
    rw [hstep, peek_at_end]
    dsimp only
    rw [if_neg hbw]
    rw [if_pos (by simp)]
    simp only [lexer.emit, lexer.current]
    refine Prod.ext ?_ rfl
    refine lexer.ext (by simp) (by simp) (by simp) rfl ?_
    simp
  · rw [if_neg heq]
    by_cases hmin : min (kw.drop skip).length rem.length = rem.length
    · -- the comparison consumed all the remaining input: the peek sees EOF
      have hrle : rem.length ≤ (kw.drop skip).length := by omega
      have htk2 : rem.take (kw.drop skip).length = rem := List.take_of_length_le hrle
      rw [hmin, htk2]
      have hstep : (⟨pre ++ rem, 0, pre.length + rem.length,
          if (kw.drop skip).isEmpty = true then wd
          else if (kw.drop skip).length ≤ rem.length then 1 else 0, tk⟩ : lexer) =
          ⟨(pre ++ rem) ++ [], 0, (pre ++ rem).length,
            if (kw.drop skip).isEmpty = true then wd
            else if (kw.drop skip).length ≤ rem.length then 1 else 0, tk⟩ := by
        simp
      rw [hstep, peek_at_end]
      dsimp only
      rw [if_neg hbw]
      rw [if_neg (by simp [heq])]
      simp only [lexer.current, lexer.errorToken]
      refine Prod.ext ?_ rfl
      refine lexer.ext (by simp) (by simp) (by simp) rfl ?_
      simp
    · -- characters remain after the comparison: the boundary check fails
      have hlt : (kw.drop skip).length < rem.length := by omega
      have hmin2 : min (kw.drop skip).length rem.length = (kw.drop skip).length := by
        omega
      have hdrop : rem.drop (kw.drop skip).length ≠ [] := by
        intro h'
        have h2 := List.length_drop (kw.drop skip).length rem
        rw [h'] at h2
        simp only [List.length_nil] at h2
        omega
      obtain ⟨d, rem2, hd⟩ : ∃ d rem2, rem.drop (kw.drop skip).length = d :: rem2 := by
        cases hcase : rem.drop (kw.drop skip).length with
        | nil => exact absurd hcase hdrop
        | cons d rem2 => exact ⟨d, rem2, rfl⟩
      have hsplitrem : rem = rem.take (kw.drop skip).length ++ d :: rem2 := by
        rw [← hd]
        exact (List.take_append_drop _ rem).symm
      have hlen : (pre ++ rem.take (kw.drop skip).length).length =
          pre.length + (kw.drop skip).length := by
        rw [List.length_append, List.length_take]
        rw [Nat.min_eq_left (Nat.le_of_lt hlt)]
      rw [hmin2]
      have hstep : (⟨pre ++ rem, 0, pre.length + (kw.drop skip).length,
          if (kw.drop skip).isEmpty = true then wd
          else if (kw.drop skip).length ≤ rem.length then 1 else 0, tk⟩ : lexer) =
          ⟨(pre ++ rem.take (kw.drop skip).length) ++ d :: rem2, 0,
            (pre ++ rem.take (kw.drop skip).length).length,
            if (kw.drop skip).isEmpty = true then wd
            else if (kw.drop skip).length ≤ rem.length then 1 else 0, tk⟩ := by
        refine lexer.ext ?_ rfl ?_ rfl rfl
        · rw [List.append_assoc, ← hsplitrem]
        · rw [hlen]
      rw [hstep, peek_at]
      dsimp only
      have hdw : isWhiteSpace d = false := by
        refine hrem d ?_
        rw [hsplitrem]
        exact List.mem_append.mpr (Or.inr (List.mem_cons_self _ _))
      have hbw2 : (!isWhiteSpace d) = true := by simp [hdw]
      rw [if_pos hbw2]
      rw [scanTillWhiteSpace_to_end (pre ++ rem.take (kw.drop skip).length) (d :: rem2)
        0 1 tk (by
          intro c hc
          refine hrem c ?_
          rw [hsplitrem]
          exact List.mem_append.mpr (Or.inr hc))]
      dsimp only
      rw [if_neg (by simp)]
      simp only [lexer.current, lexer.errorToken]
      have hback : (pre ++ rem.take (kw.drop skip).length) ++ d :: rem2 = pre ++ rem := by
        rw [List.append_assoc, ← hsplitrem]
      have hA : (List.drop skip kw).length = kw.length - skip := List.length_drop _ _
      have hreml := congrArg List.length hsplitrem
      simp only [List.length_append, List.length_take, List.length_cons] at hreml
      refine Prod.ext ?_ rfl
      refine lexer.ext (by rw [hback]) ?_ ?_ rfl ?_
      · simp only [List.length_append, List.length_take, List.length_cons]
        omega
      · simp only [List.length_append, List.length_take, List.length_cons]
        omega
      · simp [hback]
        have hback2 : pre ++ (List.take (kw.length - skip) rem ++ d :: rem2) =
            pre ++ rem := by
          rw [← hA, ← List.append_assoc, hback]
        rw [hback2]
        have hlen3 : pre.length + ((kw.length - skip) ⊓ rem.length + (rem2.length + 1)) =
            (pre ++ rem).length := by
          simp only [List.length_append]
          omega
        rw [hlen3, List.take_length]

theorem lex_eq_of_lexCommand_none {input : List Char} {l1 : lexer}
    (h : lexCommand ⟨input, 0, 0, 0, []⟩ = (l1, none)) :
    lex input = l1.tokens ++
      [⟨tokenTypeEOF, (l1.input.drop l1.start).take (l1.pos - l1.start)⟩] := by
  rw [lex, lexer.run]
  rw [show (5 : Nat) = 4 + 1 from rfl, runLoop]
  have hstep : stepF stateF.lexCommandF ⟨input, 0, 0, 0, []⟩ = (l1, none) := h
  rw [hstep]
  dsimp only
  rw [runLoop]
  rw [lexer.emit, lexer.current]

theorem dispatch_select (rest : List Char) :
    lexCommand ⟨'s' :: 'e' :: rest, 0, 0, 0, []⟩ =
      lexer.lexMatch ⟨['s', 'e'] ++ rest, 0, (['s', 'e'] : List Char).length, 1, []⟩
        tokenTypeSqlSelect "select".toList 2 none := by
  rw [lexCommand]
  rw [skipWS_head_nonspace 's' ('e' :: rest) 0 0 [] (by decide)]
  have hn1 : lexer.next ⟨'s' :: 'e' :: rest, 0, 0, 1, []⟩ =
      (⟨'s' :: 'e' :: rest, 0, 1, 1, []⟩, 's') := by
    simpa using next_at [] 's' ('e' :: rest) 0 1 []
  rw [hn1]
  dsimp only
  have hu : ¬('s' = 'u') := by decide
  rw [if_neg hu, if_pos rfl]
  rw [lexCommandS]
  have hn2 : lexer.next ⟨'s' :: 'e' :: rest, 0, 1, 1, []⟩ =
      (⟨'s' :: 'e' :: rest, 0, 2, 1, []⟩, 'e') := by
    simpa using next_at ['s'] 'e' rest 0 1 []
  rw [hn2]
  dsimp only
  rw [if_pos rfl]
  rfl

theorem dispatch_stop (c : Char) (rest : List Char) (hc : ¬(c = 'a')) :
    lexCommand ⟨'s' :: 't' :: c :: rest, 0, 0, 0, []⟩ =
      lexer.lexMatch ⟨['s', 't', c] ++ rest, 0, (['s', 't', c] : List Char).length, 1, []⟩
        tokenTypeCmdStop "stop".toList 3 none := by
  rw [lexCommand]
  rw [skipWS_head_nonspace 's' ('t' :: c :: rest) 0 0 [] (by decide)]
  have hn1 : lexer.next ⟨'s' :: 't' :: c :: rest, 0, 0, 1, []⟩ =
      (⟨'s' :: 't' :: c :: rest, 0, 1, 1, []⟩, 's') := by
    simpa using next_at [] 's' ('t' :: c :: rest) 0 1 []
  rw [hn1]
  dsimp only
  have hu : ¬('s' = 'u') := by decide
  rw [if_neg hu, if_pos rfl]
  rw [lexCommandS]
  have hn2 : lexer.next ⟨'s' :: 't' :: c :: rest, 0, 1, 1, []⟩ =
      (⟨'s' :: 't' :: c :: rest, 0, 2, 1, []⟩, 't') := by
    simpa using next_at ['s'] 't' (c :: rest) 0 1 []
  rw [hn2]
  dsimp only
  have he : ¬('t' = 'e') := by decide
  have hu2 : ¬('t' = 'u') := by decide
  rw [if_neg he, if_neg hu2, if_pos rfl]
  rw [lexCommandST]
  have hn3 : lexer.next ⟨'s' :: 't' :: c :: rest, 0, 2, 1, []⟩ =
      (⟨'s' :: 't' :: c :: rest, 0, 3, 1, []⟩, c) := by
    simpa using next_at ['s', 't'] c rest 0 1 []
  rw [hn3]
  dsimp only
  rw [if_neg hc]
  rfl

theorem dispatch_update (rest : List Char) :
    lexCommand ⟨'u' :: 'p' :: rest, 0, 0, 0, []⟩ =
      lexer.lexMatch ⟨['u', 'p'] ++ rest, 0, (['u', 'p'] : List Char).length, 1, []⟩
        tokenTypeSqlUpdate "update".toList 2 none := by
  rw [lexCommand]
  rw [skipWS_head_nonspace 'u' ('p' :: rest) 0 0 [] (by decide)]
  have hn1 : lexer.next ⟨'u' :: 'p' :: rest, 0, 0, 1, []⟩ =
      (⟨'u' :: 'p' :: rest, 0, 1, 1, []⟩, 'u') := by
    simpa using next_at [] 'u' ('p' :: rest) 0 1 []
  rw [hn1]
  dsimp only
  rw [if_pos rfl]
  have hn2 : lexer.next ⟨'u' :: 'p' :: rest, 0, 1, 1, []⟩ =
      (⟨'u' :: 'p' :: rest, 0, 2, 1, []⟩, 'p') := by
    simpa using next_at ['u'] 'p' rest 0 1 []
  rw [hn2]
  dsimp only
  rw [if_pos rfl]
  rfl

theorem dispatch_unsubscribe (c : Char) (rest : List Char) (hc : ¬(c = 'p')) :
    lexCommand ⟨'u' :: c :: rest, 0, 0, 0, []⟩ =
      lexer.lexMatch ⟨['u', c] ++ rest, 0, (['u', c] : List Char).length, 1, []⟩
        tokenTypeSqlUnsubscribe "unsubscribe".toList 2 none := by
  rw [lexCommand]
  rw [skipWS_head_nonspace 'u' (c :: rest) 0 0 [] (by decide)]
  have hn1 : lexer.next ⟨'u' :: c :: rest, 0, 0, 1, []⟩ =
      (⟨'u' :: c :: rest, 0, 1, 1, []⟩, 'u') := by
    simpa using next_at [] 'u' (c :: rest) 0 1 []
  rw [hn1]
  dsimp only
  rw [if_pos rfl]
  have hn2 : lexer.next ⟨'u' :: c :: rest, 0, 1, 1, []⟩ =
      (⟨'u' :: c :: rest, 0, 2, 1, []⟩, c) := by
    simpa using next_at ['u'] c rest 0 1 []
  rw [hn2]
  dsimp only
  rw [if_neg hc]
  rfl

theorem dispatch_subscribe (rest : List Char) :
    lexCommand ⟨'s' :: 'u' :: rest, 0, 0, 0, []⟩ =
      lexer.lexMatch ⟨['s', 'u'] ++ rest, 0, (['s', 'u'] : List Char).length, 1, []⟩
        tokenTypeSqlSubscribe "subscribe".toList 2 none := by
  rw [lexCommand]
  rw [skipWS_head_nonspace 's' ('u' :: rest) 0 0 [] (by decide)]
  have hn1 : lexer.next ⟨'s' :: 'u' :: rest, 0, 0, 1, []⟩ =
      (⟨'s' :: 'u' :: rest, 0, 1, 1, []⟩, 's') := by
    simpa using next_at [] 's' ('u' :: rest) 0 1 []
  rw [hn1]
  dsimp only
  have hu : ¬('s' = 'u') := by decide
  rw [if_neg hu, if_pos rfl]
  rw [lexCommandS]
  have hn2 : lexer.next ⟨'s' :: 'u' :: rest, 0, 1, 1, []⟩ =
      (⟨'s' :: 'u' :: rest, 0, 2, 1, []⟩, 'u') := by
    simpa using next_at ['s'] 'u' rest 0 1 []
  rw [hn2]
  dsimp only
  have he : ¬('u' = 'e') := by decide
  rw [if_neg he, if_pos rfl]
  rfl

theorem dispatch_start (rest : List Char) :
    lexCommand ⟨'s' :: 't' :: 'a' :: 'r' :: rest, 0, 0, 0, []⟩ =
      lexer.lexMatch
        ⟨['s', 't', 'a', 'r'] ++ rest, 0, (['s', 't', 'a', 'r'] : List Char).length, 1, []⟩
        tokenTypeCmdStart "start".toList 4 none := by
  rw [lexCommand]
  rw [skipWS_head_nonspace 's' ('t' :: 'a' :: 'r' :: rest) 0 0 [] (by decide)]
  have hn1 : lexer.next ⟨'s' :: 't' :: 'a' :: 'r' :: rest, 0, 0, 1, []⟩ =
      (⟨'s' :: 't' :: 'a' :: 'r' :: rest, 0, 1, 1, []⟩, 's') := by
    simpa using next_at [] 's' ('t' :: 'a' :: 'r' :: rest) 0 1 []
  rw [hn1]
  dsimp only
  have hu : ¬('s' = 'u') := by decide
  rw [if_neg hu, if_pos rfl]
  rw [lexCommandS]
  have hn2 : lexer.next ⟨'s' :: 't' :: 'a' :: 'r' :: rest, 0, 1, 1, []⟩ =
      (⟨'s' :: 't' :: 'a' :: 'r' :: rest, 0, 2, 1, []⟩, 't') := by
    simpa using next_at ['s'] 't' ('a' :: 'r' :: rest) 0 1 []
  rw [hn2]
  dsimp only
  have he : ¬('t' = 'e') := by decide
  have hu2 : ¬('t' = 'u') := by decide
  rw [if_neg he, if_neg hu2, if_pos rfl]
  rw [lexCommandST]
  have hn3 : lexer.next ⟨'s' :: 't' :: 'a' :: 'r' :: rest, 0, 2, 1, []⟩ =
      (⟨'s' :: 't' :: 'a' :: 'r' :: rest, 0, 3, 1, []⟩, 'a') := by
    simpa using next_at ['s', 't'] 'a' ('r' :: rest) 0 1 []
  rw [hn3]
  dsimp only
  rw [if_pos rfl]
  have hn4 : lexer.next ⟨'s' :: 't' :: 'a' :: 'r' :: rest, 0, 3, 1, []⟩ =
      (⟨'s' :: 't' :: 'a' :: 'r' :: rest, 0, 4, 1, []⟩, 'r') := by
    simpa using next_at ['s', 't', 'a'] 'r' rest 0 1 []
  rw [hn4]
  dsimp only
  rw [if_pos rfl]
  rfl

theorem dispatch_status (c : Char) (rest : List Char) (hc : ¬(c = 'r')) :
    lexCommand ⟨'s' :: 't' :: 'a' :: c :: rest, 0, 0, 0, []⟩ =
      lexer.lexMatch
        ⟨['s', 't', 'a', c] ++ rest, 0, (['s', 't', 'a', c] : List Char).length, 1, []⟩
        tokenTypeCmdStatus "status".toList 4 none := by
  rw [lexCommand]
  rw [skipWS_head_nonspace 's' ('t' :: 'a' :: c :: rest) 0 0 [] (by decide)]
  have hn1 : lexer.next ⟨'s' :: 't' :: 'a' :: c :: rest, 0, 0, 1, []⟩ =
      (⟨'s' :: 't' :: 'a' :: c :: rest, 0, 1, 1, []⟩, 's') := by
    simpa using next_at [] 's' ('t' :: 'a' :: c :: rest) 0 1 []
  rw [hn1]
  dsimp only
  have hu : ¬('s' = 'u') := by decide
  rw [if_neg hu, if_pos rfl]
  rw [lexCommandS]
  have hn2 : lexer.next ⟨'s' :: 't' :: 'a' :: c :: rest, 0, 1, 1, []⟩ =
      (⟨'s' :: 't' :: 'a' :: c :: rest, 0, 2, 1, []⟩, 't') := by
    simpa using next_at ['s'] 't' ('a' :: c :: rest) 0 1 []
  rw [hn2]
  dsimp only
  have he : ¬('t' = 'e') := by decide
  have hu2 : ¬('t' = 'u') := by decide
  rw [if_neg he, if_neg hu2, if_pos rfl]
  rw [lexCommandST]
  have hn3 : lexer.next ⟨'s' :: 't' :: 'a' :: c :: rest, 0, 2, 1, []⟩ =
      (⟨'s' :: 't' :: 'a' :: c :: rest, 0, 3, 1, []⟩, 'a') := by
    simpa using next_at ['s', 't'] 'a' (c :: rest) 0 1 []
  rw [hn3]
  dsimp only
  rw [if_pos rfl]
  have hn4 : lexer.next ⟨'s' :: 't' :: 'a' :: c :: rest, 0, 3, 1, []⟩ =
      (⟨'s' :: 't' :: 'a' :: c :: rest, 0, 4, 1, []⟩, c) := by
    simpa using next_at ['s', 't', 'a'] c rest 0 1 []
  rw [hn4]
  dsimp only
  rw [if_neg hc]
  rfl

theorem dispatch_insert (rest : List Char) :
    lexCommand ⟨'i' :: rest, 0, 0, 0, []⟩ =
      lexer.lexMatch ⟨['i'] ++ rest, 0, (['i'] : List Char).length, 1, []⟩
        tokenTypeSqlInsert "insert".toList 1 (some stateF.lexSqlInsertIntoF) := by
  rw [lexCommand]
  rw [skipWS_head_nonspace 'i' rest 0 0 [] (by decide)]
  have hn1 : lexer.next ⟨'i' :: rest, 0, 0, 1, []⟩ =
      (⟨'i' :: rest, 0, 1, 1, []⟩, 'i') := by
    simpa using next_at [] 'i' rest 0 1 []
  rw [hn1]
  dsimp only
  have h1 : ¬('i' = 'u') := by decide
  have h2 : ¬('i' = 's') := by decide
  rw [if_neg h1, if_neg h2, if_pos rfl]
  rfl

theorem dispatch_delete (rest : List Char) :
    lexCommand ⟨'d' :: rest, 0, 0, 0, []⟩ =
      lexer.lexMatch ⟨['d'] ++ rest, 0, (['d'] : List Char).length, 1, []⟩
        tokenTypeSqlDelete "delete".toList 1 none := by
  rw [lexCommand]
  rw [skipWS_head_nonspace 'd' rest 0 0 [] (by decide)]
  have hn1 : lexer.next ⟨'d' :: rest, 0, 0, 1, []⟩ =
      (⟨'d' :: rest, 0, 1, 1, []⟩, 'd') := by
    simpa using next_at [] 'd' rest 0 1 []
  rw [hn1]
  dsimp only
  have h1 : ¬('d' = 'u') := by decide
  have h2 : ¬('d' = 's') := by decide
  have h3 : ¬('d' = 'i') := by decide
  rw [if_neg h1, if_neg h2, if_neg h3, if_pos rfl]
  rfl

theorem dispatch_help (rest : List Char) :
    lexCommand ⟨'h' :: rest, 0, 0, 0, []⟩ =
      lexer.lexMatch ⟨['h'] ++ rest, 0, (['h'] : List Char).length, 1, []⟩
        tokenTypeCmdHelp "help".toList 1 none := by
  rw [lexCommand]
  rw [skipWS_head_nonspace 'h' rest 0 0 [] (by decide)]
  have hn1 : lexer.next ⟨'h' :: rest, 0, 0, 1, []⟩ =
      (⟨'h' :: rest, 0, 1, 1, []⟩, 'h') := by
    simpa using next_at [] 'h' rest 0 1 []
  rw [hn1]
  dsimp only
  have h1 : ¬('h' = 'u') := by decide
  have h2 : ¬('h' = 's') := by decide
  have h3 : ¬('h' = 'i') := by decide
  have h4 : ¬('h' = 'd') := by decide
  rw [if_neg h1, if_neg h2, if_neg h3, if_neg h4, if_pos rfl]
  rfl

theorem dispatch_st_end :
    lexCommand ⟨['s', 't'], 0, 0, 0, []⟩ =
      lexer.lexMatch ⟨['s', 't'] ++ [], 0, (['s', 't'] : List Char).length, 0, []⟩
        tokenTypeCmdStop "stop".toList 3 none := by
  rw [lexCommand]
  rw [skipWS_head_nonspace 's' ['t'] 0 0 [] (by decide)]
  have hn1 : lexer.next ⟨['s', 't'], 0, 0, 1, []⟩ = (⟨['s', 't'], 0, 1, 1, []⟩, 's') := by
    simpa using next_at [] 's' ['t'] 0 1 []
  rw [hn1]
  dsimp only
  have hu : ¬('s' = 'u') := by decide
  rw [if_neg hu, if_pos rfl]
  rw [lexCommandS]
  have hn2 : lexer.next ⟨['s', 't'], 0, 1, 1, []⟩ = (⟨['s', 't'], 0, 2, 1, []⟩, 't') := by
    simpa using next_at ['s'] 't' [] 0 1 []
  rw [hn2]
  dsimp only
  have he : ¬('t' = 'e') := by decide
  have hu2 : ¬('t' = 'u') := by decide
  rw [if_neg he, if_neg hu2, if_pos rfl]
  rw [lexCommandST]
  have hn3 : lexer.next ⟨['s', 't'], 0, 2, 1, []⟩ = (⟨['s', 't'], 0, 2, 0, []⟩, nulRune) := by
    simpa using next_at_end ['s', 't'] 0 1 []
  rw [hn3]
  dsimp only
  have ha : ¬(nulRune = 'a') := by decide
  rw [if_neg ha]
  rfl

theorem dispatch_sta_end :
    lexCommand ⟨['s', 't', 'a'], 0, 0, 0, []⟩ =
      lexer.lexMatch ⟨['s', 't', 'a'] ++ [], 0, (['s', 't', 'a'] : List Char).length, 0, []⟩
        tokenTypeCmdStatus "status".toList 4 none := by
  rw [lexCommand]
  rw [skipWS_head_nonspace 's' ['t', 'a'] 0 0 [] (by decide)]
  have hn1 : lexer.next ⟨['s', 't', 'a'], 0, 0, 1, []⟩ =
      (⟨['s', 't', 'a'], 0, 1, 1, []⟩, 's') := by
    simpa using next_at [] 's' ['t', 'a'] 0 1 []
  rw [hn1]
  dsimp only
  have hu : ¬('s' = 'u') := by decide
  rw [if_neg hu, if_pos rfl]
  rw [lexCommandS]
  have hn2 : lexer.next ⟨['s', 't', 'a'], 0, 1, 1, []⟩ =
      (⟨['s', 't', 'a'], 0, 2, 1, []⟩, 't') := by
    simpa using next_at ['s'] 't' ['a'] 0 1 []
  rw [hn2]
  dsimp only
  have he : ¬('t' = 'e') := by decide
  have hu2 : ¬('t' = 'u') := by decide
  rw [if_neg he, if_neg hu2, if_pos rfl]
  rw [lexCommandST]
  have hn3 : lexer.next ⟨['s', 't', 'a'], 0, 2, 1, []⟩ =
      (⟨['s', 't', 'a'], 0, 3, 1, []⟩, 'a') := by
    simpa using next_at ['s', 't'] 'a' [] 0 1 []
  rw [hn3]
  dsimp only
  rw [if_pos rfl]
  have hn4 : lexer.next ⟨['s', 't', 'a'], 0, 3, 1, []⟩ =
      (⟨['s', 't', 'a'], 0, 3, 0, []⟩, nulRune) := by
    simpa using next_at_end ['s', 't', 'a'] 0 1 []
  rw [hn4]
  dsimp only
  have hr : ¬(nulRune = 'r') := by decide
  rw [if_neg hr]
  rfl

theorem identChar_not_white (c : Char) (h : (goIsLetter c || goIsDigit c) = true) :
    isWhiteSpace c = false := by
  simp only [goIsLetter, goIsDigit, Bool.or_eq_true, Bool.and_eq_true,
    decide_eq_true_eq] at h
  rw [Bool.eq_false_iff]
  intro hw
  simp only [isWhiteSpace, goIsSpace, Bool.or_eq_true, Bool.and_eq_true,
    decide_eq_true_eq] at hw
  rcases hw with hw | hq
  · omega
  · have : c.toNat = 0 := by
      have := congrArg Char.toNat hq
      simpa using this
    omega

theorem append_right_ne {α : Type} (xs ys : List α) (h : ys ≠ []) :
    ¬(xs ++ ys = xs) := by
  intro h'
  have hl := congrArg List.length h'
  simp only [List.length_append] at hl
  have : ys.length = 0 := by omega
  exact h (List.eq_nil_of_length_eq_zero this)

/-- C6: for every command keyword immediately followed by a non-empty run of
identifier characters (letters or digits) with no whitespace boundary, the
lexer emits an error token, never the keyword token: after the keyword's
characters match, the next character must be a whitespace boundary or end of
input. -/
theorem spec_c6_keyword_needs_boundary (kw : List Char) (hkw : kw ∈ commandKeywords)
    (suffix : List Char) (hne : suffix ≠ [])
    (hid : ∀ c ∈ suffix, (goIsLetter c || goIsDigit c) = true) :
    ∃ msg, lex (kw ++ suffix) = [⟨tokenTypeError, msg⟩, ⟨tokenTypeEOF, []⟩] := by
  have hsw : ∀ c ∈ suffix, isWhiteSpace c = false :=
    fun c hc => identChar_not_white c (hid c hc)
  simp only [commandKeywords, List.mem_cons, List.not_mem_nil, or_false] at hkw
  rcases hkw with rfl | rfl | rfl | rfl | rfl | rfl | rfl | rfl | rfl | rfl
  · -- update
    have hrem : ∀ c ∈ (['d', 'a', 't', 'e'] : List Char) ++ suffix,
        isWhiteSpace c = false := by
      intro c hc
      rcases List.mem_append.mp hc with h | h
      · simp only [List.mem_cons, List.not_mem_nil, or_false] at h
        rcases h with rfl | rfl | rfl | rfl <;> decide
      · exact hsw c h
    have hne2 : ¬((['d', 'a', 't', 'e'] : List Char) ++ suffix =
        "update".toList.drop 2) :=
      append_right_ne _ _ hne
    have hm := lexMatch_word tokenTypeSqlUpdate "update".toList 2 none
      ['u', 'p'] (['d', 'a', 't', 'e'] ++ suffix) 1 [] hrem (by decide)
    rw [if_neg hne2] at hm
    have hcmd := dispatch_update (['d', 'a', 't', 'e'] ++ suffix)
    rw [hm] at hcmd
    have hfin := lex_eq_of_lexCommand_none hcmd
    exact ⟨_, by simpa using hfin⟩
  · -- unsubscribe
    have hrem : ∀ c ∈ (['s', 'u', 'b', 's', 'c', 'r', 'i', 'b', 'e'] : List Char) ++
        suffix, isWhiteSpace c = false := by
      intro c hc
      rcases List.mem_append.mp hc with h | h
      · simp only [List.mem_cons, List.not_mem_nil, or_false] at h
        rcases h with rfl | rfl | rfl | rfl | rfl | rfl | rfl | rfl | rfl <;> decide
      · exact hsw c h
    have hne2 : ¬((['s', 'u', 'b', 's', 'c', 'r', 'i', 'b', 'e'] : List Char) ++
        suffix = "unsubscribe".toList.drop 2) :=
      append_right_ne _ _ hne
    have hm := lexMatch_word tokenTypeSqlUnsubscribe "unsubscribe".toList 2 none
      ['u', 'n'] (['s', 'u', 'b', 's', 'c', 'r', 'i', 'b', 'e'] ++ suffix) 1 []
      hrem (by decide)
    rw [if_neg hne2] at hm
    have hcmd := dispatch_unsubscribe 'n'
      (['s', 'u', 'b', 's', 'c', 'r', 'i', 'b', 'e'] ++ suffix) (by decide)
    rw [hm] at hcmd
    have hfin := lex_eq_of_lexCommand_none hcmd
    exact ⟨_, by simpa using hfin⟩
  · -- select
    have hrem : ∀ c ∈ (['l', 'e', 'c', 't'] : List Char) ++ suffix,
        isWhiteSpace c = false := by
      intro c hc
      rcases List.mem_append.mp hc with h | h
      · simp only [List.mem_cons, List.not_mem_nil, or_false] at h
        rcases h with rfl | rfl | rfl | rfl <;> decide
      · exact hsw c h
    have hne2 : ¬((['l', 'e', 'c', 't'] : List Char) ++ suffix =
        "select".toList.drop 2) :=
      append_right_ne _ _ hne
    have hm := lexMatch_word tokenTypeSqlSelect "select".toList 2 none
      ['s', 'e'] (['l', 'e', 'c', 't'] ++ suffix) 1 [] hrem (by decide)
    rw [if_neg hne2] at hm
    have hcmd := dispatch_select (['l', 'e', 'c', 't'] ++ suffix)
    rw [hm] at hcmd
    have hfin := lex_eq_of_lexCommand_none hcmd
    exact ⟨_, by simpa using hfin⟩
  · -- subscribe
    have hrem : ∀ c ∈ (['b', 's', 'c', 'r', 'i', 'b', 'e'] : List Char) ++ suffix,
        isWhiteSpace c = false := by
      intro c hc
      rcases List.mem_append.mp hc with h | h
      · simp only [List.mem_cons, List.not_mem_nil, or_false] at h
        rcases h with rfl | rfl | rfl | rfl | rfl | rfl | rfl <;> decide
      · exact hsw c h
    have hne2 : ¬((['b', 's', 'c', 'r', 'i', 'b', 'e'] : List Char) ++ suffix =
        "subscribe".toList.drop 2) :=
      append_right_ne _ _ hne
    have hm := lexMatch_word tokenTypeSqlSubscribe "subscribe".toList 2 none
      ['s', 'u'] (['b', 's', 'c', 'r', 'i', 'b', 'e'] ++ suffix) 1 [] hrem (by decide)
    rw [if_neg hne2] at hm
    have hcmd := dispatch_subscribe (['b', 's', 'c', 'r', 'i', 'b', 'e'] ++ suffix)
    rw [hm] at hcmd
    have hfin := lex_eq_of_lexCommand_none hcmd
    exact ⟨_, by simpa using hfin⟩
  · -- start
    have hrem : ∀ c ∈ (['t'] : List Char) ++ suffix, isWhiteSpace c = false := by
      intro c hc
      rcases List.mem_append.mp hc with h | h
      · simp only [List.mem_cons, List.not_mem_nil, or_false] at h
        rcases h with rfl
        decide
      · exact hsw c h
    have hne2 : ¬((['t'] : List Char) ++ suffix = "start".toList.drop 4) :=
      append_right_ne _ _ hne
    have hm := lexMatch_word tokenTypeCmdStart "start".toList 4 none
      ['s', 't', 'a', 'r'] (['t'] ++ suffix) 1 [] hrem (by decide)
    rw [if_neg hne2] at hm
    have hcmd := dispatch_start (['t'] ++ suffix)
    rw [hm] at hcmd
    have hfin := lex_eq_of_lexCommand_none hcmd
    exact ⟨_, by simpa using hfin⟩
  · -- status
    have hrem : ∀ c ∈ (['u', 's'] : List Char) ++ suffix, isWhiteSpace c = false := by
      intro c hc
      rcases List.mem_append.mp hc with h | h
      · simp only [List.mem_cons, List.not_mem_nil, or_false] at h
        rcases h with rfl | rfl <;> decide
      · exact hsw c h
    have hne2 : ¬((['u', 's'] : List Char) ++ suffix = "status".toList.drop 4) :=
      append_right_ne _ _ hne
    have hm := lexMatch_word tokenTypeCmdStatus "status".toList 4 none
      ['s', 't', 'a', 't'] (['u', 's'] ++ suffix) 1 [] hrem (by decide)
    rw [if_neg hne2] at hm
    have hcmd := dispatch_status 't' (['u', 's'] ++ suffix) (by decide)
    rw [hm] at hcmd
    have hfin := lex_eq_of_lexCommand_none hcmd
    exact ⟨_, by simpa using hfin⟩
  · -- stop
    have hrem : ∀ c ∈ (['p'] : List Char) ++ suffix, isWhiteSpace c = false := by
      intro c hc
      rcases List.mem_append.mp hc with h | h
      · simp only [List.mem_cons, List.not_mem_nil, or_false] at h
        rcases h with rfl
        decide
      · exact hsw c h
    have hne2 : ¬((['p'] : List Char) ++ suffix = "stop".toList.drop 3) :=
      append_right_ne _ _ hne
    have hm := lexMatch_word tokenTypeCmdStop "stop".toList 3 none
      ['s', 't', 'o'] (['p'] ++ suffix) 1 [] hrem (by decide)
    rw [if_neg hne2] at hm
    have hcmd := dispatch_stop 'o' (['p'] ++ suffix) (by decide)
    rw [hm] at hcmd
    have hfin := lex_eq_of_lexCommand_none hcmd
    exact ⟨_, by simpa using hfin⟩
  · -- insert
    have hrem : ∀ c ∈ (['n', 's', 'e', 'r', 't'] : List Char) ++ suffix,
        isWhiteSpace c = false := by
      intro c hc
      rcases List.mem_append.mp hc with h | h
      · simp only [List.mem_cons, List.not_mem_nil, or_false] at h
        rcases h with rfl | rfl | rfl | rfl | rfl <;> decide
      · exact hsw c h
    have hne2 : ¬((['n', 's', 'e', 'r', 't'] : List Char) ++ suffix =
        "insert".toList.drop 1) :=
      append_right_ne _ _ hne
    have hm := lexMatch_word tokenTypeSqlInsert "insert".toList 1
      (some stateF.lexSqlInsertIntoF) ['i'] (['n', 's', 'e', 'r', 't'] ++ suffix) 1 []
      hrem (by decide)
    rw [if_neg hne2] at hm
    have hcmd := dispatch_insert (['n', 's', 'e', 'r', 't'] ++ suffix)
    rw [hm] at hcmd
    have hfin := lex_eq_of_lexCommand_none hcmd
    exact ⟨_, by simpa using hfin⟩
  · -- delete
    have hrem : ∀ c ∈ (['e', 'l', 'e', 't', 'e'] : List Char) ++ suffix,
        isWhiteSpace c = false := by
      intro c hc
      rcases List.mem_append.mp hc with h | h
      · simp only [List.mem_cons, List.not_mem_nil, or_false] at h
        rcases h with rfl | rfl | rfl | rfl | rfl <;> decide
      · exact hsw c h
    have hne2 : ¬((['e', 'l', 'e', 't', 'e'] : List Char) ++ suffix =
        "delete".toList.drop 1) :=
      append_right_ne _ _ hne
    have hm := lexMatch_word tokenTypeSqlDelete "delete".toList 1 none
      ['d'] (['e', 'l', 'e', 't', 'e'] ++ suffix) 1 [] hrem (by decide)
    rw [if_neg hne2] at hm
    have hcmd := dispatch_delete (['e', 'l', 'e', 't', 'e'] ++ suffix)
    rw [hm] at hcmd
    have hfin := lex_eq_of_lexCommand_none hcmd
    exact ⟨_, by simpa using hfin⟩
  · -- help
    have hrem : ∀ c ∈ (['e', 'l', 'p'] : List Char) ++ suffix,
        isWhiteSpace c = false := by
      intro c hc
      rcases List.mem_append.mp hc with h | h
      · simp only [List.mem_cons, List.not_mem_nil, or_false] at h
        rcases h with rfl | rfl | rfl <;> decide
      · exact hsw c h
    have hne2 : ¬((['e', 'l', 'p'] : List Char) ++ suffix = "help".toList.drop 1) :=
      append_right_ne _ _ hne
    have hm := lexMatch_word tokenTypeCmdHelp "help".toList 1 none
      ['h'] (['e', 'l', 'p'] ++ suffix) 1 [] hrem (by decide)
    rw [if_neg hne2] at hm
    have hcmd := dispatch_help (['e', 'l', 'p'] ++ suffix)
    rw [hm] at hcmd
    have hfin := lex_eq_of_lexCommand_none hcmd
    exact ⟨_, by simpa using hfin⟩

/-- C6 witness: `"selectx"` yields an error token and end-of-input. -/
theorem spec_c6_keyword_needs_boundary_witness :
    ("select".toList ∈ commandKeywords ∧ (['x'] : List Char) ≠ [] ∧
      ∀ c ∈ (['x'] : List Char), (goIsLetter c || goIsDigit c) = true) ∧
    ∃ msg, lex ("select".toList ++ ['x']) =
      [⟨tokenTypeError, msg⟩, ⟨tokenTypeEOF, []⟩] :=
  ⟨⟨by decide, by decide, by decide⟩,
    spec_c6_keyword_needs_boundary "select".toList (by decide) ['x'] (by decide)
      (by decide)⟩

/-- C5 (amended): for every whitespace-free input word beginning with `st`,
the lexer emits: the start-command token exactly for "start"; the
status-command token for the six-character words `s t a _ u s` whose fourth
character is anything but `r` (the dispatch never re-checks that character),
including "status" itself; the stop-command token for the four-character
words `s t _ p` whose third character is anything but `a`, including "stop";
and an error token for every other word. -/
theorem spec_c5_st_dispatch (rest : List Char)
    (hw : ∀ c ∈ rest, isWhiteSpace c = false) :
    (rest = ['a', 'r', 't'] →
      lex ('s' :: 't' :: rest) =
        [⟨tokenTypeCmdStart, 's' :: 't' :: rest⟩, ⟨tokenTypeEOF, []⟩]) ∧
    (∀ c, ¬(c = 'r') → rest = ['a', c, 'u', 's'] →
      lex ('s' :: 't' :: rest) =
        [⟨tokenTypeCmdStatus, 's' :: 't' :: rest⟩, ⟨tokenTypeEOF, []⟩]) ∧
    (∀ c, ¬(c = 'a') → rest = [c, 'p'] →
      lex ('s' :: 't' :: rest) =
        [⟨tokenTypeCmdStop, 's' :: 't' :: rest⟩, ⟨tokenTypeEOF, []⟩]) ∧
    (rest ≠ ['a', 'r', 't'] →
      (∀ c, ¬(rest = ['a', c, 'u', 's'] ∧ ¬(c = 'r'))) →
      (∀ c, ¬(rest = [c, 'p'] ∧ ¬(c = 'a'))) →
      ∃ msg, lex ('s' :: 't' :: rest) =
        [⟨tokenTypeError, msg⟩, ⟨tokenTypeEOF, []⟩]) := by
  refine ⟨?_, ?_, ?_, ?_⟩
  · rintro rfl
    decide
  · rintro c hc rfl
    have hm := lexMatch_word tokenTypeCmdStatus "status".toList 4 none
      ['s', 't', 'a', c] ['u', 's'] 1 [] (by decide) (by decide)
    rw [if_pos (by decide)] at hm
    have hcmd := dispatch_status c ['u', 's'] hc
    rw [hm] at hcmd
    have hfin := lex_eq_of_lexCommand_none hcmd
    simpa using hfin
  · rintro c hc rfl
    have hm := lexMatch_word tokenTypeCmdStop "stop".toList 3 none
      ['s', 't', c] ['p'] 1 [] (by decide) (by decide)
    rw [if_pos (by decide)] at hm
    have hcmd := dispatch_stop c ['p'] hc
    rw [hm] at hcmd
    have hfin := lex_eq_of_lexCommand_none hcmd
    simpa using hfin
  · intro h1 h2 h3
    cases rest with
    | nil => exact ⟨"Unexpected token:st".toList, by decide⟩
    | cons c0 rest1 =>
      by_cases hc0 : c0 = 'a'
      · subst hc0
        cases rest1 with
        | nil => exact ⟨"Unexpected token:sta".toList, by decide⟩
        | cons c1 rest2 =>
          by_cases hc1 : c1 = 'r'
          · subst hc1
            have hrem : ∀ c ∈ rest2, isWhiteSpace c = false := by
              intro c hc
              exact hw c (List.mem_cons_of_mem _ (List.mem_cons_of_mem _ hc))
            have hner : ¬(rest2 = "start".toList.drop 4) := by
              intro h'
              refine h1 ?_
              rw [show "start".toList.drop 4 = ['t'] from rfl] at h'
              rw [h']
            have hm := lexMatch_word tokenTypeCmdStart "start".toList 4 none
              ['s', 't', 'a', 'r'] rest2 1 [] hrem (by decide)
            rw [if_neg hner] at hm
            have hcmd := dispatch_start rest2
            rw [hm] at hcmd
            have hfin := lex_eq_of_lexCommand_none hcmd
            exact ⟨_, by simpa using hfin⟩
          · have hrem : ∀ c ∈ rest2, isWhiteSpace c = false := by
              intro c hc
              exact hw c (List.mem_cons_of_mem _ (List.mem_cons_of_mem _ hc))
            have hnes : ¬(rest2 = "status".toList.drop 4) := by
              intro h'
              refine h2 c1 ⟨?_, hc1⟩
              rw [show "status".toList.drop 4 = ['u', 's'] from rfl] at h'
              rw [h']
            have hm := lexMatch_word tokenTypeCmdStatus "status".toList 4 none
              ['s', 't', 'a', c1] rest2 1 [] hrem (by decide)
            rw [if_neg hnes] at hm
            have hcmd := dispatch_status c1 rest2 hc1
            rw [hm] at hcmd
            have hfin := lex_eq_of_lexCommand_none hcmd
            exact ⟨_, by simpa using hfin⟩
      · have hrem : ∀ c ∈ rest1, isWhiteSpace c = false := by
          intro c hc
          exact hw c (List.mem_cons_of_mem _ hc)
        have hnep : ¬(rest1 = "stop".toList.drop 3) := by
          intro h'
          refine h3 c0 ⟨?_, hc0⟩
          rw [show "stop".toList.drop 3 = ['p'] from rfl] at h'
          rw [h']
        have hm := lexMatch_word tokenTypeCmdStop "stop".toList 3 none
          ['s', 't', c0] rest1 1 [] hrem (by decide)
        rw [if_neg hnep] at hm
        have hcmd := dispatch_stop c0 rest1 hc0
        rw [hm] at hcmd
        have hfin := lex_eq_of_lexCommand_none hcmd
        exact ⟨_, by simpa using hfin⟩

/-- C5 witness: the four branches instantiated: "start", "status", "stop" and
the erroneous word "sture". -/
theorem spec_c5_st_dispatch_witness :
    lex ('s' :: 't' :: ['a', 'r', 't']) =
        [⟨tokenTypeCmdStart, 's' :: 't' :: ['a', 'r', 't']⟩, ⟨tokenTypeEOF, []⟩] ∧
    lex ('s' :: 't' :: ['a', 't', 'u', 's']) =
        [⟨tokenTypeCmdStatus, 's' :: 't' :: ['a', 't', 'u', 's']⟩, ⟨tokenTypeEOF, []⟩] ∧
    lex ('s' :: 't' :: ['o', 'p']) =
        [⟨tokenTypeCmdStop, 's' :: 't' :: ['o', 'p']⟩, ⟨tokenTypeEOF, []⟩] ∧
    ∃ msg, lex ('s' :: 't' :: ['u', 'r', 'e']) =
        [⟨tokenTypeError, msg⟩, ⟨tokenTypeEOF, []⟩] :=
  ⟨(spec_c5_st_dispatch ['a', 'r', 't'] (by decide)).1 rfl,
   (spec_c5_st_dispatch ['a', 't', 'u', 's'] (by decide)).2.1 't' (by decide) rfl,
   (spec_c5_st_dispatch ['o', 'p'] (by decide)).2.2.1 'o' (by decide) rfl,
   (spec_c5_st_dispatch ['u', 'r', 'e'] (by decide)).2.2.2 (by decide)
     (by intro c h; simp at h) (by intro c h; simp at h)⟩

/-- C5 counterexample: the claim as stated is false: "stbp" is a word
beginning with `st` that is none of start/status/stop, yet it lexes to the
stop-command token (with value "stbp"), not an error token. -/
theorem spec_c5_counterexample :
    lex "stbp".toList = [⟨tokenTypeCmdStop, "stbp".toList⟩, ⟨tokenTypeEOF, []⟩] ∧
    ¬("stbp".toList = "start".toList) ∧ ¬("stbp".toList = "status".toList) ∧
    ¬("stbp".toList = "stop".toList) ∧
    (∀ t ∈ lex "stbp".toList, ¬(t.typ = tokenTypeError)) := by
  refine ⟨by decide, by decide, by decide, by decide, by decide⟩

/-- C4 (amended): lexing "select * from t1" emits the select keyword token
and then the end-of-input token, nothing else: the select production's
continuation state is nil, so the remainder " * from t1" is never scanned. -/
theorem spec_c4_select_star_from :
    lex "select * from t1".toList =
      [⟨tokenTypeSqlSelect, "select".toList⟩, ⟨tokenTypeEOF, []⟩] := by
  decide

/-- C4 counterexample: the token-type sequence actually emitted for
"select * from t1" is [select, EOF], not the claimed five-token sequence
[select, star, from, identifier, EOF]. -/
theorem spec_c4_counterexample :
    (lex "select * from t1".toList).map token.typ =
      [tokenTypeSqlSelect, tokenTypeEOF] ∧
    ¬((lex "select * from t1".toList).map token.typ =
      [tokenTypeSqlSelect, tokenTypeSqlStar, tokenTypeSqlFrom, tokenTypeSqlId,
        tokenTypeEOF]) := by
  refine ⟨by decide, by decide⟩


theorem idTailF_proj (f : Nat) (l : lexer) :
    (idTailF f l).input = l.input ∧ (idTailF f l).start = l.start ∧
      (idTailF f l).tokens = l.tokens := by
  induction f generalizing l with
  | zero => exact ⟨rfl, rfl, rfl⟩
  | succ f ih =>
    rw [idTailF]
    rcases hn : l.next with ⟨l', r⟩
    obtain ⟨h1, h2, h3⟩ := next_proj l
    rw [hn] at h1 h2 h3
    simp only [hn]
    split
    · obtain ⟨g1, g2, g3⟩ := ih l'
      exact ⟨g1.trans h1, g2.trans h2, g3.trans h3⟩
    · exact ⟨h1, h2, h3⟩

theorem lexMatch_shape (l : lexer) (typ : tokenType) (cmd : List Char) (skip : Nat)
    (fn : Option stateF) :
    ∃ t, (l.lexMatch typ cmd skip fn).1.tokens = l.tokens ++ [t] ∧
      ((t.typ = typ ∧ (l.lexMatch typ cmd skip fn).2 = fn) ∨
        (t.typ = tokenTypeError ∧ (l.lexMatch typ cmd skip fn).2 = none)) := by
  rw [lexer.lexMatch]
  rcases hm : l.matchKeyword cmd skip with ⟨l1, ok⟩
  have h3 : l1.tokens = l.tokens := by
    have h := (matchKeyword_proj l cmd skip).2.2
    rw [hm] at h
    exact h
  dsimp only
  cases ok with
  | true =>
    rw [if_pos rfl]
    refine ⟨⟨typ, (l1.current).2⟩, ?_, Or.inl ⟨rfl, rfl⟩⟩
    simp [lexer.emit, lexer.current, h3]
  | false =>
    have hf : ¬(false = true) := by decide
    rw [if_neg hf]
    rcases hc : l1.current with ⟨l2, cur⟩
    have h4 : l2.tokens = l1.tokens := by
      have h := hc
      rw [lexer.current] at h
      injection h with h1 _
      rw [← h1]
    dsimp only
    refine ⟨⟨tokenTypeError, "Unexpected token:".toList ++ cur⟩, ?_,
      Or.inr ⟨rfl, rfl⟩⟩
    simp [lexer.errorToken, h4, h3]

theorem lexMatch_shape2 (l : lexer) (typ : tokenType) (cmd : List Char) (skip : Nat)
    (fn : Option stateF) (hE : ¬(typ = tokenTypeEOF)) (hR : ¬(typ = tokenTypeError)) :
    ∃ t, (l.lexMatch typ cmd skip fn).1.tokens = l.tokens ++ [t] ∧
      ¬(t.typ = tokenTypeEOF) ∧
      (t.typ = tokenTypeError → (l.lexMatch typ cmd skip fn).2 = none) ∧
      (∀ s', (l.lexMatch typ cmd skip fn).2 = some s' → fn = some s') := by
  obtain ⟨t, ht, hcase⟩ := lexMatch_shape l typ cmd skip fn
  refine ⟨t, ht, ?_, ?_, ?_⟩
  · rcases hcase with ⟨ha, _⟩ | ⟨ha, _⟩
    · rw [ha]; exact hE
    · rw [ha]; decide
  · rcases hcase with ⟨ha, hb⟩ | ⟨ha, hb⟩
    · intro he; exact absurd (ha.symm.trans he) hR
    · intro _; exact hb
  · intro s' hs'
    rcases hcase with ⟨_, hb⟩ | ⟨_, hb⟩
    · rw [hb] at hs'; exact hs'
    · rw [hb] at hs'; cases hs'

theorem lexCommand_shape (l : lexer) :
    ∃ t, (lexCommand l).1.tokens = l.tokens ++ [t] ∧ ¬(t.typ = tokenTypeEOF) ∧
      (t.typ = tokenTypeError → (lexCommand l).2 = none) ∧
      (∀ s', (lexCommand l).2 = some s' → s' = stateF.lexSqlInsertIntoF) := by
  obtain ⟨_, hw2⟩ := lexSkipWhiteSpaces_proj l
  simp only [lexCommand]
  rcases hn : (l.lexSkipWhiteSpaces).next with ⟨l2, r⟩
  have htok2 : l2.tokens = l.tokens := by
    have h := (next_proj l.lexSkipWhiteSpaces).2.2
    rw [hn] at h
    exact h.trans hw2
  dsimp only
  by_cases hu : r = 'u'
  · rw [if_pos hu]
    rcases hn2 : l2.next with ⟨l3, r2⟩
    have htok3 : l3.tokens = l.tokens := by
      have h := (next_proj l2).2.2
      rw [hn2] at h
      exact h.trans htok2
    dsimp only
    by_cases hp : r2 = 'p'
    · rw [if_pos hp]
      obtain ⟨t, h1, h2, h3, h4⟩ := lexMatch_shape2 l3 tokenTypeSqlUpdate
        "update".toList 2 none (by decide) (by decide)
      refine ⟨t, ?_, h2, h3, ?_⟩
      · rw [h1, htok3]
      · intro s' hs'
        cases h4 s' hs'
    · rw [if_neg hp]
      obtain ⟨t, h1, h2, h3, h4⟩ := lexMatch_shape2 l3 tokenTypeSqlUnsubscribe
        "unsubscribe".toList 2 none (by decide) (by decide)
      refine ⟨t, ?_, h2, h3, ?_⟩
      · rw [h1, htok3]
      · intro s' hs'
        cases h4 s' hs'
  · rw [if_neg hu]
    by_cases hs : r = 's'
    · rw [if_pos hs]
      simp only [lexCommandS]
      rcases hn2 : l2.next with ⟨l3, r2⟩
      have htok3 : l3.tokens = l.tokens := by
        have h := (next_proj l2).2.2
        rw [hn2] at h
        exact h.trans htok2
      dsimp only
      by_cases he : r2 = 'e'
      · rw [if_pos he]
        obtain ⟨t, h1, h2, h3, h4⟩ := lexMatch_shape2 l3 tokenTypeSqlSelect
          "select".toList 2 none (by decide) (by decide)
        refine ⟨t, ?_, h2, h3, ?_⟩
        · rw [h1, htok3]
        · intro s' hs'
          cases h4 s' hs'
      · rw [if_neg he]
        by_cases hu2 : r2 = 'u'
        · rw [if_pos hu2]
          obtain ⟨t, h1, h2, h3, h4⟩ := lexMatch_shape2 l3 tokenTypeSqlSubscribe
            "subscribe".toList 2 none (by decide) (by decide)
          refine ⟨t, ?_, h2, h3, ?_⟩
          · rw [h1, htok3]
          · intro s' hs'
            cases h4 s' hs'
        · rw [if_neg hu2]
          by_cases ht2 : r2 = 't'
          · rw [if_pos ht2]
            simp only [lexCommandST]
            rcases hn3 : l3.next with ⟨l4, r3⟩
            have htok4 : l4.tokens = l.tokens := by
              have h := (next_proj l3).2.2
              rw [hn3] at h
              exact h.trans htok3
            dsimp only
            by_cases ha : r3 = 'a'
            · rw [if_pos ha]
              rcases hn4 : l4.next with ⟨l5, r4⟩
              have htok5 : l5.tokens = l.tokens := by
                have h := (next_proj l4).2.2
                rw [hn4] at h
                exact h.trans htok4
              dsimp only
              by_cases hr : r4 = 'r'
              · rw [if_pos hr]
                obtain ⟨t, h1, h2, h3, h4⟩ := lexMatch_shape2 l5 tokenTypeCmdStart
                  "start".toList 4 none (by decide) (by decide)
                refine ⟨t, ?_, h2, h3, ?_⟩
                · rw [h1, htok5]
                · intro s' hs'
                  cases h4 s' hs'
              · rw [if_neg hr]
                obtain ⟨t, h1, h2, h3, h4⟩ := lexMatch_shape2 l5 tokenTypeCmdStatus
                  "status".toList 4 none (by decide) (by decide)
                refine ⟨t, ?_, h2, h3, ?_⟩
                · rw [h1, htok5]
                · intro s' hs'
                  cases h4 s' hs'
            · rw [if_neg ha]
              obtain ⟨t, h1, h2, h3, h4⟩ := lexMatch_shape2 l4 tokenTypeCmdStop
                "stop".toList 3 none (by decide) (by decide)
              refine ⟨t, ?_, h2, h3, ?_⟩
              · rw [h1, htok4]
              · intro s' hs'
                cases h4 s' hs'
          · rw [if_neg ht2]
            rcases hc : l3.current with ⟨l4, cur⟩
            have htok4 : l4.tokens = l.tokens := by
              have h := hc
              rw [lexer.current] at h
              injection h with h1 _
              rw [← h1]
              exact htok3
            dsimp only
            refine ⟨⟨tokenTypeError, "Invalid command:".toList ++ cur⟩, ?_,
              by intro hx; simp at hx, fun _ => rfl, ?_⟩
            · simp [lexer.errorToken, htok4]
            · intro s' hs'
              cases hs'
    · rw [if_neg hs]
      by_cases hi : r = 'i'
      · rw [if_pos hi]
        obtain ⟨t, h1, h2, h3, h4⟩ := lexMatch_shape2 l2 tokenTypeSqlInsert
          "insert".toList 1 (some stateF.lexSqlInsertIntoF) (by decide) (by decide)
        refine ⟨t, ?_, h2, h3, ?_⟩
        · rw [h1, htok2]
        · intro s' hs'
          exact (Option.some_inj.mp (h4 s' hs')).symm
      · rw [if_neg hi]
        by_cases hd : r = 'd'
        · rw [if_pos hd]
          obtain ⟨t, h1, h2, h3, h4⟩ := lexMatch_shape2 l2 tokenTypeSqlDelete
            "delete".toList 1 none (by decide) (by decide)
          refine ⟨t, ?_, h2, h3, ?_⟩
          · rw [h1, htok2]
          · intro s' hs'
            cases h4 s' hs'
        · rw [if_neg hd]
          by_cases hh : r = 'h'
          · rw [if_pos hh]
            obtain ⟨t, h1, h2, h3, h4⟩ := lexMatch_shape2 l2 tokenTypeCmdHelp
              "help".toList 1 none (by decide) (by decide)
            refine ⟨t, ?_, h2, h3, ?_⟩
            · rw [h1, htok2]
            · intro s' hs'
              cases h4 s' hs'
          · rw [if_neg hh]
            rcases hc : l2.current with ⟨l3, cur⟩
            have htok3 : l3.tokens = l.tokens := by
              have h := hc
              rw [lexer.current] at h
              injection h with h1 _
              rw [← h1]
              exact htok2
            dsimp only
            refine ⟨⟨tokenTypeError, "Invalid command:".toList ++ cur⟩, ?_,
              by intro hx; simp at hx, fun _ => rfl, ?_⟩
            · simp [lexer.errorToken, htok3]
            · intro s' hs'
              cases hs'

theorem lexSqlInsertInto_shape (l : lexer) :
    ∃ t, (lexSqlInsertInto l).1.tokens = l.tokens ++ [t] ∧ ¬(t.typ = tokenTypeEOF) ∧
      (t.typ = tokenTypeError → (lexSqlInsertInto l).2 = none) ∧
      (∀ s', (lexSqlInsertInto l).2 = some s' → s' = stateF.lexSqlInsertIntoTableF) := by
  obtain ⟨_, hw2⟩ := lexSkipWhiteSpaces_proj l
  simp only [lexSqlInsertInto]
  obtain ⟨t, h1, h2, h3, h4⟩ := lexMatch_shape2 l.lexSkipWhiteSpaces tokenTypeSqlInto
    "into".toList 0 (some stateF.lexSqlInsertIntoTableF) (by decide) (by decide)
  refine ⟨t, ?_, h2, h3, ?_⟩
  · rw [h1, hw2]
  · intro s' hs'
    exact (Option.some_inj.mp (h4 s' hs')).symm

theorem lexSqlInsertIntoTable_shape (l : lexer) :
    ∃ t, (lexSqlInsertIntoTable l).1.tokens = l.tokens ++ [t] ∧
      ¬(t.typ = tokenTypeEOF) ∧
      (t.typ = tokenTypeError → (lexSqlInsertIntoTable l).2 = none) ∧
      (∀ s', (lexSqlInsertIntoTable l).2 = some s' →
        s' = stateF.lexSqlInsertIntoTableLPF) := by
  obtain ⟨_, hw2⟩ := lexSkipWhiteSpaces_proj l
  simp only [lexSqlInsertIntoTable, lexer.lexSqlIdentifier]
  rcases hn : (l.lexSkipWhiteSpaces).next with ⟨l2, r⟩
  have htok2 : l2.tokens = l.tokens := by
    have h := (next_proj l.lexSkipWhiteSpaces).2.2
    rw [hn] at h
    exact h.trans hw2
  dsimp only
  by_cases hlet : goIsLetter r = true
  · have hcond : ¬((!goIsLetter r) = true) := by simp [hlet]
    rw [if_neg hcond]
    obtain ⟨_, _, i3⟩ := idTailF_proj (l2.input.length + 1 - l2.pos) l2
    refine ⟨⟨tokenTypeSqlTable,
      ((idTailF (l2.input.length + 1 - l2.pos) l2).input.drop
          (idTailF (l2.input.length + 1 - l2.pos) l2).start).take
        ((idTailF (l2.input.length + 1 - l2.pos) l2).pos -
          (idTailF (l2.input.length + 1 - l2.pos) l2).start)⟩, ?_,
      by intro hx; simp at hx, ?_, ?_⟩
    · simp [lexer.emit, lexer.current, i3, htok2]
    · intro hx
      simp at hx
    · intro s' hs'
      exact (Option.some_inj.mp hs').symm
  · have hcond : (!goIsLetter r) = true := by simp [hlet]
    rw [if_pos hcond]
    rcases hc : l2.current with ⟨l3, cur⟩
    have htok3 : l3.tokens = l.tokens := by
      have h := hc
      rw [lexer.current] at h
      injection h with h1 _
      rw [← h1]
      exact htok2
    dsimp only
    refine ⟨⟨tokenTypeError, "identifier must begin with a letter ".toList ++ cur⟩, ?_,
      by intro hx; simp at hx, fun _ => rfl, ?_⟩
    · simp [lexer.errorToken, htok3]
    · intro s' hs'
      cases hs'

theorem lexSqlInsertIntoTableLP_shape (l : lexer) :
    ∃ t, (lexSqlInsertIntoTableLP l).1.tokens = l.tokens ++ [t] ∧
      ¬(t.typ = tokenTypeEOF) ∧
      (t.typ = tokenTypeError → (lexSqlInsertIntoTableLP l).2 = none) ∧
      (∀ s', (lexSqlInsertIntoTableLP l).2 = some s' → False) := by
  obtain ⟨_, hw2⟩ := lexSkipWhiteSpaces_proj l
  simp only [lexSqlInsertIntoTableLP, lexer.lexSqlLeftParenthesis]
  rcases hn : (l.lexSkipWhiteSpaces).next with ⟨l2, r⟩
  have htok2 : l2.tokens = l.tokens := by
    have h := (next_proj l.lexSkipWhiteSpaces).2.2
    rw [hn] at h
    exact h.trans hw2
  dsimp only
  by_cases hpar : r = '('
  · have hcond : ¬(r ≠ '(') := by simp [hpar]
    rw [if_neg hcond]
    refine ⟨⟨tokenTypeSqlLeftParenthesis,
      (l2.input.drop l2.start).take (l2.pos - l2.start)⟩, ?_,
      by intro hx; simp at hx, ?_, ?_⟩
    · simp [lexer.emit, lexer.current, htok2]
    · intro hx
      simp at hx
    · intro s' hs'
      cases hs'
  · rw [if_pos hpar]
    refine ⟨⟨tokenTypeError, "expected ( ".toList⟩, ?_,
      by intro hx; simp at hx, fun _ => rfl, ?_⟩
    · simp [lexer.errorToken, htok2]
    · intro s' hs'
      cases hs'

theorem stepF_shape (s : stateF) (l : lexer) :
    ∃ t, (stepF s l).1.tokens = l.tokens ++ [t] ∧ ¬(t.typ = tokenTypeEOF) ∧
      (t.typ = tokenTypeError → (stepF s l).2 = none) ∧
      (∀ s', (stepF s l).2 = some s' → rankF s' < rankF s) := by
  cases s with
  | lexCommandF =>
    simp only [stepF]
    obtain ⟨t, h1, h2, h3, h4⟩ := lexCommand_shape l
    refine ⟨t, h1, h2, h3, ?_⟩
    intro s' hs'
    rw [h4 s' hs']
    decide
  | lexSqlInsertIntoF =>
    simp only [stepF]
    obtain ⟨t, h1, h2, h3, h4⟩ := lexSqlInsertInto_shape l
    refine ⟨t, h1, h2, h3, ?_⟩
    intro s' hs'
    rw [h4 s' hs']
    decide
  | lexSqlInsertIntoTableF =>
    simp only [stepF]
    obtain ⟨t, h1, h2, h3, h4⟩ := lexSqlInsertIntoTable_shape l
    refine ⟨t, h1, h2, h3, ?_⟩
    intro s' hs'
    rw [h4 s' hs']
    decide
  | lexSqlInsertIntoTableLPF =>
    simp only [stepF]
    obtain ⟨t, h1, h2, h3, h4⟩ := lexSqlInsertIntoTableLP_shape l
    refine ⟨t, h1, h2, h3, ?_⟩
    intro s' hs'
    exact absurd (h4 s' hs') not_false

theorem runLoop_shape (fuel : Nat) : ∀ (s : stateF) (l : lexer), rankF s < fuel →
    ∃ pre tl, (runLoop fuel l (some s)).tokens = l.tokens ++ pre ++ tl ∧
      (∀ t ∈ pre, ¬(t.typ = tokenTypeEOF) ∧ ¬(t.typ = tokenTypeError)) ∧
      (tl = [] ∨ ∃ m, tl = [⟨tokenTypeError, m⟩]) := by
  induction fuel with
  | zero =>
    intro s l h
    exact absurd h (Nat.not_lt_zero _)
  | succ f ih =>
    intro s l h
    simp only [runLoop]
    obtain ⟨t, h1, h2, h3, h4⟩ := stepF_shape s l
    rcases hstep : stepF s l with ⟨l', s'⟩
    rw [hstep] at h1 h3 h4
    dsimp only at h1 h3 h4 ⊢
    cases s' with
    | none =>
      have hrl : runLoop f l' none = l' := by cases f <;> rfl
      rw [hrl, h1]
      by_cases herr : t.typ = tokenTypeError
      · refine ⟨[], [t], by simp, ?_, ?_⟩
        · intro u hu
          cases hu
        · refine Or.inr ⟨t.val, ?_⟩
          cases t with
          | mk ty v =>
            cases herr
            rfl
      · refine ⟨[t], [], by simp, ?_, Or.inl rfl⟩
        intro u hu
        rw [List.mem_singleton] at hu
        subst hu
        exact ⟨h2, herr⟩
    | some s2 =>
      have hrank : rankF s2 < f := by
        have hlt := h4 s2 rfl
        omega
      obtain ⟨pre, tl, g1, g2, g3⟩ := ih s2 l' hrank
      have htne : ¬(t.typ = tokenTypeError) := by
        intro hx
        cases h3 hx
      refine ⟨t :: pre, tl, ?_, ?_, g3⟩
      · rw [g1, h1]
        simp
      · intro u hu
        rw [List.mem_cons] at hu
        rcases hu with rfl | hu
        · exact ⟨h2, htne⟩
        · exact g2 u hu

/-- C7 (amended): for every input, the token stream delivered to the consumer
ends in exactly one end-of-input token (none occurs earlier), and contains at
most one error token, which — when present — sits immediately before the
end-of-input token.  The spec's "never both" is wrong: `run` emits the
end-of-input token unconditionally, even right after an error token. -/
theorem spec_c7_terminal_tokens (input : List Char) :
    ∃ pre v, lex input = pre ++ [⟨tokenTypeEOF, v⟩] ∧
      (∀ t ∈ pre, ¬(t.typ = tokenTypeEOF)) ∧
      ((∀ t ∈ pre, ¬(t.typ = tokenTypeError)) ∨
        ∃ pre' msg, pre = pre' ++ [⟨tokenTypeError, msg⟩] ∧
          (∀ t ∈ pre', ¬(t.typ = tokenTypeError))) := by
  obtain ⟨pre, tl, g1, g2, g3⟩ :=
    runLoop_shape 5 stateF.lexCommandF ⟨input, 0, 0, 0, []⟩ (by decide)
  refine ⟨pre ++ tl,
    (((runLoop 5 ⟨input, 0, 0, 0, []⟩ (some stateF.lexCommandF)).input.drop
        (runLoop 5 ⟨input, 0, 0, 0, []⟩ (some stateF.lexCommandF)).start).take
      ((runLoop 5 ⟨input, 0, 0, 0, []⟩ (some stateF.lexCommandF)).pos -
        (runLoop 5 ⟨input, 0, 0, 0, []⟩ (some stateF.lexCommandF)).start)),
    ?_, ?_, ?_⟩
  · rw [lex, lexer.run]
    simp only [lexer.emit, lexer.current]
    rw [g1]
    simp
  · intro t hmem
    rw [List.mem_append] at hmem
    rcases hmem with hm | hm
    · exact (g2 t hm).1
    · rcases g3 with rfl | ⟨m, rfl⟩
      · cases hm
      · rw [List.mem_singleton] at hm
        subst hm
        intro hx
        simp at hx
  · rcases g3 with rfl | ⟨m, rfl⟩
    · left
      intro t hm
      rw [List.append_nil] at hm
      exact (g2 t hm).2
    · right
      exact ⟨pre, m, rfl, fun t hm => (g2 t hm).2⟩

/-- C7 counterexample: for the input "x" the lexer hands the consumer BOTH an
error token and an end-of-input token — the run loop emits the end-of-input
token unconditionally after the states finish, error or not.  This refutes the
spec's "terminated by exactly one error token or one end-of-input token (never
both)". -/
theorem spec_c7_counterexample :
    lex "x".toList =
      [⟨tokenTypeError, "Invalid command:x".toList⟩, ⟨tokenTypeEOF, []⟩] ∧
    (lex "x".toList).countP (fun t => decide (t.typ = tokenTypeError)) = 1 ∧
    (lex "x".toList).countP (fun t => decide (t.typ = tokenTypeEOF)) = 1 := by
  refine ⟨by decide, by decide, by decide⟩

/-- C8: for a well-formed bridge connect command (connect keyword, one
literal-value token carrying the address, end-of-input) the parser returns a
connect-bridge request whose address field is exactly the literal's text; with
the address token missing, it returns an ordinary error value (naming the
unexpected token type) that is not a connect request — no panic, no
zero-valued request. -/
theorem spec_c8_mysql_connect (cv addr ev : List Char) :
    parseSqlMysql [⟨tokenTypeSqlConnect, cv⟩, ⟨tokenTypeSqlValue, addr⟩,
        ⟨tokenTypeEOF, ev⟩] = request.mysqlConnectRequest addr ∧
      ∃ msg, msg ≠ [] ∧
        parseSqlMysql [⟨tokenTypeSqlConnect, cv⟩, ⟨tokenTypeEOF, ev⟩] =
          request.errRequest msg ∧
        ∀ a, request.errRequest msg ≠ request.mysqlConnectRequest a := by
  constructor
  · rfl
  · refine ⟨_, ?_, rfl, ?_⟩
    · simp
    · intro a h
      cases h

/-- C10 (code bug): when the write succeeds but the read fails, Go `Execute`
still dereferences the nil response header (`header.RequestId`) — a nil-pointer
fault, modelled as `none` — instead of returning false with the read's error
string.  The claimed "header is only dereferenced when the read reported
success" does not hold in the code. -/
theorem spec_c10_read_failure_faults (c : clientState) (e : List Char)
    (hv : c.rwValid = true) :
    clientExecute c none (Except.error e) = none := by
  simp [clientExecute, clientWrite, clientRead, hv]

/-- Witness for C10 at a concrete connected client and read error. -/
theorem spec_c10_read_failure_faults_witness :
    clientExecute ⟨true, 0, [], []⟩ none
      (Except.error "read failed".toList) = none :=
  spec_c10_read_failure_faults ⟨true, 0, [], []⟩ "read failed".toList rfl
